import Mathlib

/-!
Verification of the text-to-field extraction engine of the NID parser
(`main.py`).  The extractors are Python functions built on `re`; we embed
them over lists of characters together with a small backtracking regular
expression matcher that reproduces the semantics of Python's `re` module
for the constructs actually used by the source: literal characters
(case-sensitive and case-insensitive), character classes, concatenation,
prioritized alternation, greedy and lazy repetition, bounded repetition,
optional pieces, capture groups, positive lookahead, word boundaries and
the end anchor.  Matching is fueled: the fuel bounds the recursion depth
of the backtracking search and is chosen generously; all universal
theorems below are fuel-independent soundness facts.

Character classes follow the ASCII reading of Python's `\d`, `\s`, `\w`,
`[A-Z]`, `[a-z]`; the OCR texts handled by the program are ASCII.
-/

namespace NIDParser

/-- Whitespace test, the ASCII reading of Python's regex class `\s`
(space, tab, newline, carriage return, vertical tab, form feed). -/
def isWsB (c : Char) : Bool :=
  c == ' ' || c == '\t' || c == '\n' || c == '\r' || c == '\x0b' || c == '\x0c'

/-- Decimal digit test, Python's regex class `\d` (ASCII). -/
def isDigitB (c : Char) : Bool :=
  '0' ≤ c && c ≤ '9'

/-- Uppercase ASCII letter, Python's class `[A-Z]`. -/
def isUpperB (c : Char) : Bool :=
  'A' ≤ c && c ≤ 'Z'

/-- ASCII letter, what `[a-z]` matches under `re.IGNORECASE`. -/
def isAlphaB (c : Char) : Bool :=
  isUpperB c || ('a' ≤ c && c ≤ 'z')

/-- Word character for `\b`, the ASCII reading of Python's `\w`. -/
def isWordB (c : Char) : Bool :=
  isAlphaB c || isDigitB c || c == '_'

/-- Captures: an association list from group number to captured content;
entries added later in the match shadow earlier ones, matching Python's
"last capture of a group wins" rule. -/
abbrev Caps := List (Nat × List Char)

/-- Regular expression abstract syntax covering the constructs used by
the source's patterns. -/
inductive RE where
  | eps
  | cls (p : Char → Bool)
  | cat (a b : RE)
  | alt (a b : RE)
  | opt (a : RE)
  | starG (a : RE)
  | lazyStar (a : RE)
  | grp (n : Nat) (a : RE)
  | look (a : RE)
  | wb
  | eos

open RE

/-- Structural size of a regex, used to bound the matcher's fuel. -/
def sizeRE : RE → Nat
  | eps => 1
  | cls _ => 1
  | cat a b => sizeRE a + sizeRE b + 1
  | alt a b => sizeRE a + sizeRE b + 1
  | opt a => sizeRE a + 1
  | starG a => sizeRE a + 1
  | lazyStar a => sizeRE a + 1
  | grp _ a => sizeRE a + 1
  | look a => sizeRE a + 1
  | wb => 1
  | eos => 1

/-- Last character of `c` if any, else the previous context character;
used to thread the `\b` context through a concatenation. -/
def lastOpt (prev : Option Char) (c : List Char) : Option Char :=
  match c.getLast? with
  | some x => some x
  | none => prev

/-- Combine capture sets of two sequentially matched pieces: captures of
the later piece shadow those of the earlier one. -/
def mergeCaps (g1 g2 : Caps) : Caps := g2 ++ g1

/-- Word-ness of the character left of the current position. -/
def isWordOpt : Option Char → Bool
  | none => false
  | some c => isWordB c

/-- Word-ness of the character at the current position. -/
def isWordHead : List Char → Bool
  | [] => false
  | c :: _ => isWordB c

/-- Fueled backtracking matcher.  `run f r prev s` returns the list of
ways `r` can match a prefix of `s` — each as (consumed, remaining,
captures) — in exactly the priority order in which Python's backtracking
engine would find them, so the head of the list is Python's match.
`prev` is the character immediately before `s` in the whole subject (for
`\b`).  Repetition stops rather than looping when an iteration consumes
nothing, as Python's engine does; every starred body in the embedded
patterns consumes at least one character anyway.  Fuel bounds recursion
depth only: it is decremented once per nested call. -/
def run : Nat → RE → Option Char → List Char → List (List Char × List Char × Caps)
  | 0, _, _, _ => []
  | _ + 1, eps, _, s => [([], s, [])]
  | _ + 1, cls p, _, s =>
    match s with
    | [] => []
    | c :: rest => if p c then [([c], rest, [])] else []
  | f + 1, cat a b, prev, s =>
    (run f a prev s).flatMap fun x =>
      (run f b (lastOpt prev x.1) x.2.1).map fun y =>
        (x.1 ++ y.1, y.2.1, mergeCaps x.2.2 y.2.2)
  | f + 1, alt a b, prev, s => run f a prev s ++ run f b prev s
  | f + 1, opt a, prev, s => run f a prev s ++ [([], s, [])]
  | f + 1, starG a, prev, s =>
    ((run f a prev s).flatMap fun x =>
      if x.1.isEmpty then []
      else (run f (starG a) (lastOpt prev x.1) x.2.1).map fun y =>
        (x.1 ++ y.1, y.2.1, mergeCaps x.2.2 y.2.2)) ++ [([], s, [])]
  | f + 1, lazyStar a, prev, s =>
    ([], s, []) :: ((run f a prev s).flatMap fun x =>
      if x.1.isEmpty then []
      else (run f (lazyStar a) (lastOpt prev x.1) x.2.1).map fun y =>
        (x.1 ++ y.1, y.2.1, mergeCaps x.2.2 y.2.2))
  | f + 1, grp n a, prev, s =>
    (run f a prev s).map fun x => (x.1, x.2.1, (n, x.1) :: x.2.2)
  | f + 1, look a, prev, s =>
    if (run f a prev s).isEmpty then [] else [([], s, [])]
  | _ + 1, wb, prev, s =>
    if isWordOpt prev != isWordHead s then [([], s, [])] else []
  | _ + 1, eos, _, s =>
    match s with
    | [] => [([], [], [])]
    | [c] => if c == '\n' then [([], [c], [])] else []
    | _ => []

/-- Fuel that is comfortably larger than the maximal recursion depth the
matcher can reach on subject `s`. -/
def bigFuel (r : RE) (s : List Char) : Nat :=
  (sizeRE r + 2) * (s.length + 2)

/-- Walk the subject left to right and return Python's `re.search`
result: the first (leftmost, then priority-first) match, as (consumed,
remaining, captures, context character preceding the remaining text). -/
def searchGo (r : RE) : Option Char → List Char → Option (List Char × List Char × Caps × Option Char)
  | prev, s =>
    match (run (bigFuel r s) r prev s).head? with
    | some x => some (x.1, x.2.1, x.2.2, lastOpt prev x.1)
    | none =>
      match s with
      | [] => none
      | c :: rest => searchGo r (some c) rest

/-- Python's `re.search`: leftmost match of `r` in `s`. -/
def searchRE (r : RE) (s : List Char) : Option (List Char × List Char × Caps) :=
  (searchGo r none s).map fun x => (x.1, x.2.1, x.2.2.1)

/-- Scanner behind `re.findall`: repeatedly search, resuming after each
match (advancing one character after an empty match, as Python does). -/
def findAllAux (r : RE) : Nat → Option Char → List Char → List (List Char × Caps)
  | 0, _, _ => []
  | f + 1, prev, s =>
    match searchGo r prev s with
    | none => []
    | some (c, rem, g, prev') =>
      (c, g) ::
        (match c, rem with
         | [], [] => []
         | [], ch :: rest => findAllAux r f (some ch) rest
         | _ :: _, _ => findAllAux r f prev' rem)

/-- Python's `re.findall`: all non-overlapping matches, left to right. -/
def findAll (r : RE) (s : List Char) : List (List Char × Caps) :=
  findAllAux r (s.length + 1) none s

/-- Python's `re.fullmatch` as a Boolean: some match consumes all of `s`. -/
def fullmatchB (r : RE) (s : List Char) : Bool :=
  (run (bigFuel r s) r none s).any fun x => x.2.1.isEmpty

/-- Value of capture group `n`, the empty string when the group did not
participate in the match — exactly what Python's `findall` reports. -/
def getGrp (n : Nat) (g : Caps) : List Char :=
  match g.find? (fun e => e.1 == n) with
  | some e => e.2
  | none => []

/-- Python's `str.strip()`: drop leading and trailing whitespace. -/
def trimWs (l : List Char) : List Char :=
  ((l.dropWhile isWsB).reverse.dropWhile isWsB).reverse

/-- Worker for `pysplit`: `acc` holds the reversed current word. -/
def pysplitGo : List Char → List Char → List (List Char)
  | acc, [] => if acc.isEmpty then [] else [acc.reverse]
  | acc, c :: t =>
    if isWsB c then
      if acc.isEmpty then pysplitGo [] t else acc.reverse :: pysplitGo [] t
    else pysplitGo (c :: acc) t

/-- Python's `str.split()` with no argument: words separated by runs of
whitespace, never producing empty words. -/
def pysplit (l : List Char) : List (List Char) :=
  pysplitGo [] l

/-- Worker for `resplitWs`. -/
def resplitGo : List Char → List Char → List (List Char)
  | acc, [] => [acc.reverse]
  | acc, c :: t =>
    if isWsB c then acc.reverse :: resplitGo [] (t.dropWhile isWsB)
    else resplitGo (c :: acc) t
  termination_by _ t => t.length
  decreasing_by
    · exact Nat.lt_succ_of_le (List.dropWhile_suffix _).sublist.length_le
    · exact Nat.lt_succ_self _

/-- Python's `re.split(r'\s+', s)`: fields between maximal whitespace
runs, keeping empty fields at the two ends. -/
def resplitWs (l : List Char) : List (List Char) :=
  resplitGo [] l

/-- Python's `' '.join(...)`. -/
def joinSp : List (List Char) → List Char
  | [] => []
  | [w] => w
  | w :: ws => w ++ ' ' :: joinSp ws

/-! Pattern constructors, mirroring the concrete syntax of the source's
regular expressions. -/

/-- Fixed-shape sequence of single-character tests. -/
def rigid : List (Char → Bool) → RE
  | [] => eps
  | p :: ps => cat (cls p) (rigid ps)

/-- Case-sensitive literal string. -/
def litStr (w : String) : RE :=
  rigid (w.toList.map fun d => fun c => c == d)

/-- Case-insensitive literal string (`re.IGNORECASE`). -/
def ciStr (w : String) : RE :=
  rigid (w.toList.map fun d => fun c => c.toLower == d.toLower)

/-- Greedy `+`. -/
def plusRE (a : RE) : RE := cat a (starG a)

/-- Exactly `n` copies of `a`. -/
def repN (a : RE) : Nat → RE
  | 0 => eps
  | n + 1 => cat a (repN a n)

/-- Up to `n` further copies of `a`, greedily (more first). -/
def optChain (a : RE) : Nat → RE
  | 0 => eps
  | n + 1 => opt (cat a (optChain a n))

/-- Greedy bounded repetition `a{m,n}`. -/
def reps (m n : Nat) (a : RE) : RE :=
  cat (repN a m) (optChain a (n - m))

/-- Ordered alternation `r₁|r₂|…` (leftmost alternative first). -/
def altChain : List RE → RE
  | [] => eps
  | [r] => r
  | r :: rs => alt r (altChain rs)

def wsC : RE := cls isWsB
def digitC : RE := cls isDigitB
def upperC : RE := cls isUpperB
def letterC : RE := cls isAlphaB
def wsPlus : RE := plusRE wsC
def sepC : RE := cls fun c => c == '/' || c == '-' || c == '.'
def colonWsC : RE := cls fun c => c == ':' || isWsB c
def dotCommaDashC : RE := cls fun c => c == '.' || c == ',' || c == '-'
def wsColonDashC : RE := cls fun c => isWsB c || c == ':' || c == '-'
def colonDashC : RE := cls fun c => c == ':' || c == '-'
def digitWsC : RE := cls fun c => isDigitB c || isWsB c
def commaC : RE := cls fun c => c == ','
def dotC : RE := cls fun c => c == '.'

/-- Month-name alternation of the date patterns, case-insensitive. -/
def monthRE : RE :=
  altChain (["Jan", "Feb", "Mar", "Apr", "May", "Jun",
             "Jul", "Aug", "Sep", "Oct", "Nov", "Dec"].map ciStr)

/-- Date pattern 1 of `extract_date_of_birth`:
`\b(\d{1,2})[/\-.](\d{1,2})[/\-.](\d{2,4})\b`. -/
def datePat1 : RE :=
  cat wb (cat (grp 1 (reps 1 2 digitC)) (cat sepC (cat (grp 2 (reps 1 2 digitC))
    (cat sepC (cat (grp 3 (reps 2 4 digitC)) wb)))))

/-- Date pattern 2: `\b(\d{4})[/\-.](\d{1,2})[/\-.](\d{1,2})\b`. -/
def datePat2 : RE :=
  cat wb (cat (grp 1 (repN digitC 4)) (cat sepC (cat (grp 2 (reps 1 2 digitC))
    (cat sepC (cat (grp 3 (reps 1 2 digitC)) wb)))))

/-- Date pattern 3: `\b(\d{1,2})\s+(Jan|…|Dec)[a-z]*\s+(\d{2,4})\b`
(under `re.IGNORECASE`, `[a-z]` also matches uppercase letters). -/
def datePat3 : RE :=
  cat wb (cat (grp 1 (reps 1 2 digitC)) (cat wsPlus (cat (grp 2 monthRE)
    (cat (starG letterC) (cat wsPlus (cat (grp 3 (reps 2 4 digitC)) wb))))))

/-- Date pattern 4: `\b(Jan|…|Dec)[a-z]*\s+(\d{1,2}),?\s+(\d{2,4})\b`. -/
def datePat4 : RE :=
  cat wb (cat (grp 1 monthRE) (cat (starG letterC) (cat wsPlus
    (cat (grp 2 (reps 1 2 digitC)) (cat (opt commaC) (cat wsPlus
      (cat (grp 3 (reps 2 4 digitC)) wb)))))))

/-- The ordered date-pattern list of `extract_date_of_birth`. -/
def datePatterns : List RE := [datePat1, datePat2, datePat3, datePat4]

/-- Body of the grouped-digits NID pattern: `\d{2,6}(?:\s\d{2,6}){2,5}`. -/
def nidGroupedBody : RE :=
  cat (reps 2 6 digitC) (reps 2 5 (cat wsC (reps 2 6 digitC)))

/-- NID pattern 1: `\b(\d{2,6}(?:\s\d{2,6}){2,5})\b`. -/
def nidPat1 : RE := cat wb (cat (grp 1 nidGroupedBody) wb)

/-- NID pattern 2: `\b(\d{10,17})\b`. -/
def nidPat2 : RE := cat wb (cat (grp 1 (reps 10 17 digitC)) wb)

/-- Body of the label-anchored NID patterns: `\d[\d\s]+`. -/
def nidLabelBody : RE := cat digitC (plusRE digitWsC)

/-- NID pattern 3: `\bNID[:\s]*(\d[\d\s]+)\b`. -/
def nidPat3 : RE :=
  cat wb (cat (ciStr "NID") (cat (starG colonWsC) (cat (grp 1 nidLabelBody) wb)))

/-- NID pattern 4: `\bID[:\s]*(\d[\d\s]+)\b`. -/
def nidPat4 : RE :=
  cat wb (cat (ciStr "ID") (cat (starG colonWsC) (cat (grp 1 nidLabelBody) wb)))

/-- NID pattern 5: `\bNational\s+ID[:\s]*(\d[\d\s]+)\b`. -/
def nidPat5 : RE :=
  cat wb (cat (ciStr "National") (cat wsPlus (cat (ciStr "ID")
    (cat (starG colonWsC) (cat (grp 1 nidLabelBody) wb)))))

/-- The ordered NID-pattern list of `extract_nid_number`. -/
def nidPatterns : List RE := [nidPat1, nidPat2, nidPat3, nidPat4, nidPat5]

/-- `[A-Z]+`. -/
def upPlus : RE := plusRE upperC

/-- `[A-Z][A-Z]+`. -/
def upWord : RE := cat upperC upPlus

/-- `[A-Z]{2,}`. -/
def upWord2 : RE := cat upperC (cat upperC (starG upperC))

/-- Group 1 of the honorific pattern: `[A-Z][A-Z]+(?:\s+[A-Z]+)*?`. -/
def mdNameBody : RE :=
  cat upperC (cat (plusRE upperC) (lazyStar (cat wsPlus upPlus)))

/-- Alternatives of the honorific pattern's lookahead:
`Data|Date|of|Birth|0t|Birth|ara|@ue|\d|$`. -/
def mdLookTail : RE :=
  altChain [litStr "Data", litStr "Date", litStr "of", litStr "Birth",
            litStr "0t", litStr "Birth", litStr "ara", litStr "@ue", digitC, eos]

/-- The honorific-anchored name pattern of `extract_name`:
`MD:\s*([A-Z][A-Z]+(?:\s+[A-Z]+)*?)(?=\s+(?:Data|Date|of|Birth|0t|Birth|ara|@ue|\d|$))`. -/
def mdPat : RE :=
  cat (litStr "MD:") (cat (starG wsC)
    (cat (grp 1 mdNameBody) (look (cat wsPlus mdLookTail))))

/-- Group 1 of the label-anchored name pattern:
`(?:MD[\.,\-]?\s*)?(?:[A-Z][A-Z]+(?:\s+|\.|$))+`. -/
def nameInner : RE :=
  cat (opt (cat (litStr "MD") (cat (opt dotCommaDashC) (starG wsC))))
      (plusRE (cat upWord (altChain [wsPlus, dotC, eos])))

/-- The label-anchored name pattern of `extract_name`:
`Name[:\s]+((?:MD[\.,\-]?\s*)?(?:[A-Z][A-Z]+(?:\s+|\.|$))+)`. -/
def namePat : RE :=
  cat (litStr "Name") (cat (plusRE colonWsC) (grp 1 nameInner))

/-- Group 1 of the context-anchored name pattern:
`[A-Z][A-Z]+(?:\s+[A-Z]+)*` (greedy). -/
def dobCtxName : RE :=
  cat upperC (cat (plusRE upperC) (starG (cat wsPlus upPlus)))

/-- The context-anchored name pattern of `extract_name`:
`([A-Z][A-Z]+(?:\s+[A-Z]+)*)\s+(?:Data|Date)\s+of\s+Birth`. -/
def dobCtxPat : RE :=
  cat (grp 1 dobCtxName) (cat wsPlus (cat (alt (litStr "Data") (litStr "Date"))
    (cat wsPlus (cat (litStr "of") (cat wsPlus (litStr "Birth"))))))

/-- The fallback name pattern of `extract_name`:
`(MD[\.,-]?\s*)?([A-Z]{2,}(?:\s+[A-Z]{2,})*)`. -/
def fallbackPat : RE :=
  cat (opt (grp 1 (cat (litStr "MD") (cat (opt dotCommaDashC) (starG wsC)))))
      (grp 2 (cat upWord2 (starG (cat wsPlus upWord2))))

/-- Single-character tests of the BO account number `120\d{3}\s\d{10}`. -/
def boNumPreds : List (Char → Bool) :=
  [fun c => c == '1', fun c => c == '2', fun c => c == '0'] ++
    List.replicate 3 isDigitB ++ [isWsB] ++ List.replicate 10 isDigitB

/-- Group 1 of the BO pattern: `120\d{3}\s\d{10}`. -/
def boNumBody : RE := rigid boNumPreds

/-- The BO pattern of `extract_fields_by_type` (IGNORECASE):
`BO\s*Account\s*Number\s*[:\-]?\s*(120\d{3}\s\d{10})`. -/
def boPat : RE :=
  cat (ciStr "BO") (cat (starG wsC) (cat (ciStr "Account") (cat (starG wsC)
    (cat (ciStr "Number") (cat (starG wsC) (cat (opt colonDashC)
      (cat (starG wsC) (grp 1 boNumBody))))))))

/-- The TIN pattern of `extract_fields_by_type` (IGNORECASE):
`\bTIN[\s:-]*(\d{9,12})\b`. -/
def tinPat : RE :=
  cat wb (cat (ciStr "TIN") (cat (starG wsColonDashC)
    (cat (grp 1 (reps 9 12 digitC)) wb)))

/-! The extractors of `main.py`. -/

/-- Stoplist of the context-anchored name rule. -/
def stop3 : List (List Char) :=
  ["SCREENSHOT", "RECORDER", "CHROME", "EXTENSION"].map String.toList

/-- Stoplist of the fallback name rule. -/
def stop14 : List (List Char) :=
  ["SCREENSHOT", "RECORDER", "CHROME", "EXTENSION", "DEVELOPMENT",
   "INTERVIEW", "COMPANY", "REPOSITORIES", "RESEARCH", "TRANSLATE",
   "FEEDBACK", "OPTIONS", "PEOPLE", "REPUBLIC"].map String.toList

/-- Iterate the pattern list, returning group 0 of the first pattern that
matches anywhere (the `for pattern … for match … return match.group(0)`
loop of `extract_date_of_birth`). -/
def firstSearchG0 : List RE → List Char → Option (List Char)
  | [], _ => none
  | p :: ps, t =>
    match searchRE p t with
    | some x => some x.1
    | none => firstSearchG0 ps t

/-- `extract_date_of_birth` of `main.py`. -/
def extract_date_of_birth (text : List Char) : Option (List Char) :=
  firstSearchG0 datePatterns text

/-- Iterate the pattern list, returning the stripped first `findall`
result (its group 1) of the first pattern with any match (the body of
`extract_nid_number`). -/
def firstFindallG1 : List RE → List Char → Option (List Char)
  | [], _ => none
  | p :: ps, t =>
    match findAll p t with
    | [] => firstFindallG1 ps t
    | m :: _ => some (trimWs (getGrp 1 m.2))

/-- `extract_nid_number` of `main.py`. -/
def extract_nid_number (text : List Char) : Option (List Char) :=
  firstFindallG1 nidPatterns text

/-- What a single pattern of `extract_nid_number` alone would produce:
the stripped group 1 of its first `findall` result. -/
def nidFirstG1 (r : RE) (t : List Char) : Option (List Char) :=
  (findAll r t).head?.map fun m => trimWs (getGrp 1 m.2)

/-- The literal result head `"MD: "` of the honorific branch. -/
def mdStr : List Char := "MD: ".toList

/-- The canonical honorific token `"MD."`. -/
def mdDot : List Char := "MD.".toList

/-- Group 1 of the honorific pattern's search, when it matches. -/
def mdGrp (text : List Char) : Option (List Char) :=
  (searchRE mdPat text).map fun x => getGrp 1 x.2.2

/-- Post-processing of the honorific branch: strip, split, drop one
trailing single-letter artifact, and prepend `"MD: "`. -/
def mdPost (g : List Char) : List Char :=
  let parts := pysplit (trimWs g)
  let parts2 :=
    if 1 < parts.length ∧ (parts.getLastD []).length = 1 then
      parts.dropLast
    else parts
  mdStr ++ joinSp parts2

/-- Heuristic 1 of `extract_name`: the honorific-anchored rule. -/
def mdBranch (text : List Char) : Option (List Char) :=
  (mdGrp text).map mdPost

/-- The word shape `MD[\.,-]?` checked by `re.fullmatch` in heuristic 2. -/
def mdWordPat : RE := cat (litStr "MD") (opt dotCommaDashC)

/-- The `filtered` word list of heuristic 2: split the matched group on
whitespace, canonicalize honorific tokens to `MD.`, keep all-uppercase
words, drop the rest. -/
def nameFiltered (x : List Char × List Char × Caps) : List (List Char) :=
  (resplitWs (getGrp 1 x.2.2)).filterMap fun w =>
    if fullmatchB mdWordPat w then some mdDot
    else if fullmatchB upPlus w then some w
    else none

/-- Heuristic 2 of `extract_name`: the label-anchored rule with its
normalization of the matched words. -/
def nameBranch (text : List Char) : Option (List Char) :=
  match searchRE namePat text with
  | none => none
  | some x =>
    if (nameFiltered x).isEmpty then none else some (joinSp (nameFiltered x))

/-- Heuristic 3 of `extract_name`: the context-anchored rule with its
three-word bound and stoplist check. -/
def dobCtxBranch (text : List Char) : Option (List Char) :=
  match searchRE dobCtxPat text with
  | none => none
  | some x =>
    if (pysplit (trimWs (getGrp 1 x.2.2))).length ≤ 3 ∧
        ∀ w ∈ pysplit (trimWs (getGrp 1 x.2.2)), w ∉ stop3 then
      some (trimWs (getGrp 1 x.2.2))
    else none

/-- Sort key of the fallback rule's `max`: length of the stripped
concatenation of honorific part and name part. -/
def fbKey (x : List Char × List Char) : Nat :=
  (trimWs (x.1 ++ x.2)).length

/-- The `filtered_matches` list of heuristic 4: for every fallback
`findall` match (honorific part, all-caps part), split the all-caps part
into words, drop stoplist words, and keep the pair when words remain. -/
def fbFilterMatches (text : List Char) : List (List Char × List Char) :=
  ((findAll fallbackPat text).map fun m => (getGrp 1 m.2, getGrp 2 m.2)).filterMap
    fun pr =>
      let filteredWords := (pysplit (trimWs pr.2)).filter fun w => w ∉ stop14
      if filteredWords.isEmpty then none
      else some (pr.1, joinSp filteredWords)

/-- The `best` pair of heuristic 4: Python's `max` by key over the
filtered matches, keeping the earliest maximum. -/
def fbBest (m : List Char × List Char) (ms : List (List Char × List Char)) :
    List Char × List Char :=
  ms.foldl (fun b x => if fbKey b < fbKey x then x else b) m

/-- The `name_parts` list of heuristic 4: the canonical honorific when
the honorific part matched, then the stripped name part when present. -/
def fbAssemble (best : List Char × List Char) : List (List Char) :=
  (if best.1.isEmpty then [] else [mdDot]) ++
  (if best.2.isEmpty then [] else [trimWs best.2])

/-- Heuristic 4 of `extract_name`: the all-caps fallback with stoplist
filtering and longest-match selection. -/
def fallbackBranch (text : List Char) : Option (List Char) :=
  match fbFilterMatches text with
  | [] => none
  | m :: ms =>
    if (fbAssemble (fbBest m ms)).isEmpty then none
    else some (joinSp (fbAssemble (fbBest m ms)))

/-- `extract_name` of `main.py`: the four heuristics in cascade, first
success wins. -/
def extract_name (text : List Char) : Option (List Char) :=
  match mdBranch text with
  | some r => some r
  | none =>
    match nameBranch text with
    | some r => some r
    | none =>
      match dobCtxBranch text with
      | some r => some r
      | none => fallbackBranch text

/-- The fixed five-field record assembled by `extract_fields_by_type`. -/
structure Details where
  name : Option (List Char)
  date_of_birth : Option (List Char)
  nid_number : Option (List Char)
  bo_id : Option (List Char)
  tin_number : Option (List Char)
deriving DecidableEq

/-- The all-absent record that every field defaults to. -/
def emptyDetails : Details := ⟨none, none, none, none, none⟩

/-- The BO branch of the router: group 1 of the BO pattern, if any. -/
def boExtract (text : List Char) : Option (List Char) :=
  (searchRE boPat text).map fun x => getGrp 1 x.2.2

/-- The TIN branch of the router: group 1 of the TIN pattern, if any. -/
def tinExtract (text : List Char) : Option (List Char) :=
  (searchRE tinPat text).map fun x => getGrp 1 x.2.2

/-- `extract_fields_by_type` of `main.py`. -/
def extract_fields_by_type (doc_type : String) (text : List Char) : Details :=
  if doc_type = "NID" then
    { emptyDetails with
        name := extract_name text
        date_of_birth := extract_date_of_birth text
        nid_number := extract_nid_number text }
  else if doc_type = "BO" then
    { emptyDetails with bo_id := boExtract text }
  else if doc_type = "TIN" then
    { emptyDetails with tin_number := tinExtract text }
  else emptyDetails

/-- The pure core of the `/extract-nid-info/` endpoint's response:
the declared type, the extracted details, and the echoed raw text. -/
structure NIDResponse where
  rtype : String
  details : Details
  raw_text : List Char

/-- Assembly of the endpoint response from document type and OCR text
(the part of `extract_nid_info` downstream of OCR). -/
def extract_nid_info_core (doc_type : String) (all_text : List Char) : NIDResponse :=
  { rtype := doc_type
    details := extract_fields_by_type doc_type all_text
    raw_text := all_text }

/-! Static analyses of patterns, used by the soundness lemmas. -/

/-- Minimal number of characters any match of `r` consumes. -/
def minLen : RE → Nat
  | eps => 0
  | cls _ => 1
  | cat a b => minLen a + minLen b
  | alt a b => min (minLen a) (minLen b)
  | opt _ => 0
  | starG _ => 0
  | lazyStar _ => 0
  | grp _ a => minLen a
  | look _ => 0
  | wb => 0
  | eos => 0

/-- Group numbers that participate in every match of `r` (a sound
under-approximation: alternation and repetition contribute nothing). -/
def mustBind : RE → List Nat
  | cat a b => mustBind a ++ mustBind b
  | grp n a => n :: mustBind a
  | _ => []

/-- All capture groups occurring in `r`, with their bodies. -/
def grpBodies : RE → List (Nat × RE)
  | cat a b => grpBodies a ++ grpBodies b
  | alt a b => grpBodies a ++ grpBodies b
  | opt a => grpBodies a
  | starG a => grpBodies a
  | lazyStar a => grpBodies a
  | grp n a => (n, a) :: grpBodies a
  | look a => grpBodies a
  | _ => []

/-- A test every match of `r` must start with, when one is statically
evident. -/
def headPred : RE → Option (Char → Bool)
  | cls p => some p
  | cat a _ => if 1 ≤ minLen a then headPred a else none
  | grp _ a => headPred a
  | _ => none

/-- Contiguous-substring relation: `a` occurs inside `b`. -/
def SubSeg (a b : List Char) : Prop :=
  ∃ u v, b = u ++ a ++ v

/-- Boolean test that `b` starts with `a`. -/
def startsWithB : List Char → List Char → Bool
  | [], _ => true
  | _ :: _, [] => false
  | a :: as, b :: bs => a == b && startsWithB as bs

/-- Boolean test that `a` occurs contiguously inside `b`. -/
def containsSegB (a : List Char) : List Char → Bool
  | [] => startsWithB a []
  | b :: bs => startsWithB a (b :: bs) || containsSegB a bs

/-- All characters whitespace. -/
def AllWs (l : List Char) : Prop := ∀ c ∈ l, isWsB c = true

/-- Case-insensitive equality of `l` with the (lowercase) word `w`. -/
def lowerEq (l : List Char) (w : String) : Prop :=
  l.map Char.toLower = w.toList

/-- Shape of a matched BO account number: the literal digits `120`,
three more digits, one whitespace character, then ten digits. -/
def BONumberShape (s : List Char) : Prop :=
  ∃ d3 w d10, s = '1' :: '2' :: '0' :: (d3 ++ w :: d10) ∧
    d3.length = 3 ∧ (∀ c ∈ d3, isDigitB c = true) ∧ isWsB w = true ∧
    d10.length = 10 ∧ (∀ c ∈ d10, isDigitB c = true)

/-- The number `s` occurs in `t` directly preceded by a case-insensitive
`BO Account Number` label: the three label words with optional
whitespace between them, an optional `:` or `-`, and optional
whitespace before the number. -/
def BOLabeled (t s : List Char) : Prop :=
  ∃ u b w1 a w2 nm w3 p w4 v,
    t = u ++ b ++ w1 ++ a ++ w2 ++ nm ++ w3 ++ p ++ w4 ++ s ++ v ∧
    lowerEq b "bo" ∧ AllWs w1 ∧ lowerEq a "account" ∧ AllWs w2 ∧
    lowerEq nm "number" ∧ AllWs w3 ∧ (p = [] ∨ p = [':'] ∨ p = ['-']) ∧
    AllWs w4

/-! Elementary facts about `SubSeg`. -/

theorem subseg_self (a : List Char) : SubSeg a a :=
  ⟨[], [], by simp⟩

theorem subseg_trans {a b c : List Char} (h1 : SubSeg a b) (h2 : SubSeg b c) :
    SubSeg a c := by
  obtain ⟨u, v, rfl⟩ := h1
  obtain ⟨u', v', rfl⟩ := h2
  exact ⟨u' ++ u, v ++ v', by simp⟩

theorem subseg_of_suffix {a b u : List Char} (h : b = u ++ a) : SubSeg a b :=
  ⟨u, [], by simp [h]⟩

theorem subseg_of_head {a b v : List Char} (h : b = a ++ v) : SubSeg a b :=
  ⟨[], v, h⟩

/-! Soundness lemmas for the matcher.  All are independent of the fuel:
whatever `run` returns is a real decomposition of the subject. -/

/-- Every result of `run` splits the subject: consumed ++ remaining is
the subject. -/
theorem run_split : ∀ (f : Nat) (r : RE) (prev : Option Char) (s : List Char)
    (x : List Char × List Char × Caps), x ∈ run f r prev s → x.1 ++ x.2.1 = s := by
  intro f
  induction f with
  | zero => intro r prev s x h; simp [run] at h
  | succ f ih =>
    intro r prev s x h
    cases r with
    | eps =>
      simp only [run, List.mem_singleton] at h
      subst h; rfl
    | cls p =>
      cases s with
      | nil => simp [run] at h
      | cons c rest =>
        simp only [run] at h
        split at h
        · simp only [List.mem_singleton] at h; subst h; rfl
        · simp at h
    | cat a b =>
      simp only [run, List.mem_flatMap, List.mem_map] at h
      obtain ⟨x1, hx1, y, hy, hxy⟩ := h
      subst hxy
      have h1 := ih a prev s x1 hx1
      have h2 := ih b (lastOpt prev x1.1) x1.2.1 y hy
      simp only [List.append_assoc, h2, h1]
    | alt a b =>
      simp only [run, List.mem_append] at h
      rcases h with h | h
      · exact ih a prev s x h
      · exact ih b prev s x h
    | opt a =>
      simp only [run, List.mem_append, List.mem_singleton] at h
      rcases h with h | h
      · exact ih a prev s x h
      · subst h; rfl
    | starG a =>
      simp only [run, List.mem_append, List.mem_singleton] at h
      rcases h with h | h
      · simp only [List.mem_flatMap] at h
        obtain ⟨x1, hx1, h2⟩ := h
        split at h2
        · simp at h2
        · simp only [List.mem_map] at h2
          obtain ⟨y, hy, hxy⟩ := h2
          subst hxy
          have h1 := ih a prev s x1 hx1
          have h2 := ih (starG a) (lastOpt prev x1.1) x1.2.1 y hy
          simp only [List.append_assoc, h2, h1]
      · subst h; rfl
    | lazyStar a =>
      simp only [run, List.mem_cons] at h
      rcases h with h | h
      · subst h; rfl
      · simp only [List.mem_flatMap] at h
        obtain ⟨x1, hx1, h2⟩ := h
        split at h2
        · simp at h2
        · simp only [List.mem_map] at h2
          obtain ⟨y, hy, hxy⟩ := h2
          subst hxy
          have h1 := ih a prev s x1 hx1
          have h2 := ih (lazyStar a) (lastOpt prev x1.1) x1.2.1 y hy
          simp only [List.append_assoc, h2, h1]
    | grp n a =>
      simp only [run, List.mem_map] at h
      obtain ⟨x1, hx1, hxy⟩ := h
      subst hxy
      exact ih a prev s x1 hx1
    | look a =>
      simp only [run] at h
      split at h
      · simp at h
      · simp only [List.mem_singleton] at h; subst h; rfl
    | wb =>
      simp only [run] at h
      split at h
      · simp only [List.mem_singleton] at h; subst h; rfl
      · simp at h
    | eos =>
      cases s with
      | nil =>
        simp only [run, List.mem_singleton] at h
        subst h; rfl
      | cons c t =>
        cases t with
        | nil =>
          simp only [run] at h
          split at h
          · simp only [List.mem_singleton] at h; subst h; rfl
          · simp at h
        | cons c2 t2 => simp [run] at h

/-- Every result of `run` consumes at least `minLen r` characters. -/
theorem run_minLen : ∀ (f : Nat) (r : RE) (prev : Option Char) (s : List Char)
    (x : List Char × List Char × Caps), x ∈ run f r prev s → minLen r ≤ x.1.length := by
  intro f
  induction f with
  | zero => intro r prev s x h; simp [run] at h
  | succ f ih =>
    intro r prev s x h
    cases r with
    | eps => simp [minLen]
    | cls p =>
      cases s with
      | nil => simp [run] at h
      | cons c rest =>
        simp only [run] at h
        split at h
        · simp only [List.mem_singleton] at h; subst h; simp [minLen]
        · simp at h
    | cat a b =>
      simp only [run, List.mem_flatMap, List.mem_map] at h
      obtain ⟨x1, hx1, y, hy, hxy⟩ := h
      subst hxy
      have h1 := ih a prev s x1 hx1
      have h2 := ih b (lastOpt prev x1.1) x1.2.1 y hy
      simpa [minLen] using Nat.add_le_add h1 h2
    | alt a b =>
      simp only [run, List.mem_append] at h
      rcases h with h | h
      · exact le_trans (min_le_left _ _) (ih a prev s x h)
      · exact le_trans (min_le_right _ _) (ih b prev s x h)
    | opt a => simp [minLen]
    | starG a => simp [minLen]
    | lazyStar a => simp [minLen]
    | grp n a =>
      simp only [run, List.mem_map] at h
      obtain ⟨x1, hx1, hxy⟩ := h
      subst hxy
      exact ih a prev s x1 hx1
    | look a => simp [minLen]
    | wb => simp [minLen]
    | eos => simp [minLen]

/-- Every capture recorded by `run` is a contiguous piece of the
subject. -/
theorem run_caps : ∀ (f : Nat) (r : RE) (prev : Option Char) (s : List Char)
    (x : List Char × List Char × Caps), x ∈ run f r prev s →
    ∀ e ∈ x.2.2, SubSeg e.2 s := by
  intro f
  induction f with
  | zero => intro r prev s x h; simp [run] at h
  | succ f ih =>
    intro r prev s x h
    cases r with
    | eps =>
      simp only [run, List.mem_singleton] at h
      subst h; intro e he; simp at he
    | cls p =>
      cases s with
      | nil => simp [run] at h
      | cons c rest =>
        simp only [run] at h
        split at h
        · simp only [List.mem_singleton] at h; subst h; intro e he; simp at he
        · simp at h
    | cat a b =>
      simp only [run, List.mem_flatMap, List.mem_map] at h
      obtain ⟨x1, hx1, y, hy, hxy⟩ := h
      subst hxy
      intro e he
      simp only [mergeCaps, List.mem_append] at he
      rcases he with he | he
      · have hsub := ih b (lastOpt prev x1.1) x1.2.1 y hy e he
        exact subseg_trans hsub (subseg_of_suffix (run_split _ a prev s x1 hx1).symm)
      · exact ih a prev s x1 hx1 e he
    | alt a b =>
      simp only [run, List.mem_append] at h
      rcases h with h | h
      · exact ih a prev s x h
      · exact ih b prev s x h
    | opt a =>
      simp only [run, List.mem_append, List.mem_singleton] at h
      rcases h with h | h
      · exact ih a prev s x h
      · subst h; intro e he; simp at he
    | starG a =>
      simp only [run, List.mem_append, List.mem_singleton] at h
      rcases h with h | h
      · simp only [List.mem_flatMap] at h
        obtain ⟨x1, hx1, h2⟩ := h
        split at h2
        · simp at h2
        · simp only [List.mem_map] at h2
          obtain ⟨y, hy, hxy⟩ := h2
          subst hxy
          intro e he
          simp only [mergeCaps, List.mem_append] at he
          rcases he with he | he
          · have hsub := ih (starG a) (lastOpt prev x1.1) x1.2.1 y hy e he
            exact subseg_trans hsub (subseg_of_suffix (run_split _ a prev s x1 hx1).symm)
          · exact ih a prev s x1 hx1 e he
      · subst h; intro e he; simp at he
    | lazyStar a =>
      simp only [run, List.mem_cons] at h
      rcases h with h | h
      · subst h; intro e he; simp at he
      · simp only [List.mem_flatMap] at h
        obtain ⟨x1, hx1, h2⟩ := h
        split at h2
        · simp at h2
        · simp only [List.mem_map] at h2
          obtain ⟨y, hy, hxy⟩ := h2
          subst hxy
          intro e he
          simp only [mergeCaps, List.mem_append] at he
          rcases he with he | he
          · have hsub := ih (lazyStar a) (lastOpt prev x1.1) x1.2.1 y hy e he
            exact subseg_trans hsub (subseg_of_suffix (run_split _ a prev s x1 hx1).symm)
          · exact ih a prev s x1 hx1 e he
    | grp n a =>
      simp only [run, List.mem_map] at h
      obtain ⟨x1, hx1, hxy⟩ := h
      subst hxy
      intro e he
      simp only [List.mem_cons] at he
      rcases he with he | he
      · subst he
        exact subseg_of_head (run_split _ a prev s x1 hx1).symm
      · exact ih a prev s x1 hx1 e he
    | look a =>
      simp only [run] at h
      split at h
      · simp at h
      · simp only [List.mem_singleton] at h; subst h; intro e he; simp at he
    | wb =>
      simp only [run] at h
      split at h
      · simp only [List.mem_singleton] at h; subst h; intro e he; simp at he
      · simp at h
    | eos =>
      cases s with
      | nil =>
        simp only [run, List.mem_singleton] at h
        subst h; intro e he; simp at he
      | cons c t =>
        cases t with
        | nil =>
          simp only [run] at h
          split at h
          · simp only [List.mem_singleton] at h; subst h; intro e he; simp at he
          · simp at h
        | cons c2 t2 => simp [run] at h

/-- Groups listed by `mustBind` are bound in every result of `run`. -/
theorem run_mustBind : ∀ (f : Nat) (r : RE) (prev : Option Char) (s : List Char)
    (x : List Char × List Char × Caps), x ∈ run f r prev s →
    ∀ n ∈ mustBind r, ∃ cs, (n, cs) ∈ x.2.2 := by
  intro f
  induction f with
  | zero => intro r prev s x h; simp [run] at h
  | succ f ih =>
    intro r prev s x h
    cases r with
    | cat a b =>
      simp only [run, List.mem_flatMap, List.mem_map] at h
      obtain ⟨x1, hx1, y, hy, hxy⟩ := h
      subst hxy
      intro n hn
      simp only [mustBind, List.mem_append] at hn
      rcases hn with hn | hn
      · obtain ⟨cs, hcs⟩ := ih a prev s x1 hx1 n hn
        exact ⟨cs, by simp only [mergeCaps, List.mem_append]; exact Or.inr hcs⟩
      · obtain ⟨cs, hcs⟩ := ih b (lastOpt prev x1.1) x1.2.1 y hy n hn
        exact ⟨cs, by simp only [mergeCaps, List.mem_append]; exact Or.inl hcs⟩
    | grp m a =>
      simp only [run, List.mem_map] at h
      obtain ⟨x1, hx1, hxy⟩ := h
      subst hxy
      intro n hn
      simp only [mustBind, List.mem_cons] at hn
      rcases hn with hn | hn
      · subst hn; exact ⟨x1.1, by simp⟩
      · obtain ⟨cs, hcs⟩ := ih a prev s x1 hx1 n hn
        exact ⟨cs, by simp only [List.mem_cons]; exact Or.inr hcs⟩
    | eps => intro n hn; simp [mustBind] at hn
    | cls p => intro n hn; simp [mustBind] at hn
    | alt a b => intro n hn; simp [mustBind] at hn
    | opt a => intro n hn; simp [mustBind] at hn
    | starG a => intro n hn; simp [mustBind] at hn
    | lazyStar a => intro n hn; simp [mustBind] at hn
    | look a => intro n hn; simp [mustBind] at hn
    | wb => intro n hn; simp [mustBind] at hn
    | eos => intro n hn; simp [mustBind] at hn

/-- A pattern with no groups records no captures. -/
theorem run_nogroups : ∀ (f : Nat) (r : RE) (prev : Option Char) (s : List Char)
    (x : List Char × List Char × Caps), x ∈ run f r prev s →
    grpBodies r = [] → x.2.2 = [] := by
  intro f
  induction f with
  | zero => intro r prev s x h; simp [run] at h
  | succ f ih =>
    intro r prev s x h hg
    cases r with
    | eps =>
      simp only [run, List.mem_singleton] at h
      subst h; rfl
    | cls p =>
      cases s with
      | nil => simp [run] at h
      | cons c rest =>
        simp only [run] at h
        split at h
        · simp only [List.mem_singleton] at h; subst h; rfl
        · simp at h
    | cat a b =>
      simp only [grpBodies, List.append_eq_nil] at hg
      simp only [run, List.mem_flatMap, List.mem_map] at h
      obtain ⟨x1, hx1, y, hy, hxy⟩ := h
      subst hxy
      have h1 := ih a prev s x1 hx1 hg.1
      have h2 := ih b (lastOpt prev x1.1) x1.2.1 y hy hg.2
      simp [mergeCaps, h1, h2]
    | alt a b =>
      simp only [grpBodies, List.append_eq_nil] at hg
      simp only [run, List.mem_append] at h
      rcases h with h | h
      · exact ih a prev s x h hg.1
      · exact ih b prev s x h hg.2
    | opt a =>
      simp only [grpBodies] at hg
      simp only [run, List.mem_append, List.mem_singleton] at h
      rcases h with h | h
      · exact ih a prev s x h hg
      · subst h; rfl
    | starG a =>
      simp only [grpBodies] at hg
      simp only [run, List.mem_append, List.mem_singleton] at h
      rcases h with h | h
      · simp only [List.mem_flatMap] at h
        obtain ⟨x1, hx1, h2⟩ := h
        split at h2
        · simp at h2
        · simp only [List.mem_map] at h2
          obtain ⟨y, hy, hxy⟩ := h2
          subst hxy
          have h1 := ih a prev s x1 hx1 hg
          have h2 := ih (starG a) (lastOpt prev x1.1) x1.2.1 y hy (by simp [grpBodies, hg])
          simp [mergeCaps, h1, h2]
      · subst h; rfl
    | lazyStar a =>
      simp only [grpBodies] at hg
      simp only [run, List.mem_cons] at h
      rcases h with h | h
      · subst h; rfl
      · simp only [List.mem_flatMap] at h
        obtain ⟨x1, hx1, h2⟩ := h
        split at h2
        · simp at h2
        · simp only [List.mem_map] at h2
          obtain ⟨y, hy, hxy⟩ := h2
          subst hxy
          have h1 := ih a prev s x1 hx1 hg
          have h2 := ih (lazyStar a) (lastOpt prev x1.1) x1.2.1 y hy (by simp [grpBodies, hg])
          simp [mergeCaps, h1, h2]
    | grp n a => simp [grpBodies] at hg
    | look a =>
      simp only [run] at h
      split at h
      · simp at h
      · simp only [List.mem_singleton] at h; subst h; rfl
    | wb =>
      simp only [run] at h
      split at h
      · simp only [List.mem_singleton] at h; subst h; rfl
      · simp at h
    | eos =>
      cases s with
      | nil =>
        simp only [run, List.mem_singleton] at h
        subst h; rfl
      | cons c t =>
        cases t with
        | nil =>
          simp only [run] at h
          split at h
          · simp only [List.mem_singleton] at h; subst h; rfl
          · simp at h
        | cons c2 t2 => simp [run] at h

/-- Every capture comes from some run of the body of a group of the
pattern. -/
theorem run_caps_body : ∀ (f : Nat) (r : RE) (prev : Option Char) (s : List Char)
    (x : List Char × List Char × Caps), x ∈ run f r prev s →
    ∀ e ∈ x.2.2, ∃ b, (e.1, b) ∈ grpBodies r ∧
      ∃ (f' : Nat) (prev' : Option Char) (s' : List Char) (y : List Char × List Char × Caps),
        y ∈ run f' b prev' s' ∧ y.1 = e.2 := by
  intro f
  induction f with
  | zero => intro r prev s x h; simp [run] at h
  | succ f ih =>
    intro r prev s x h
    cases r with
    | eps =>
      simp only [run, List.mem_singleton] at h
      subst h; intro e he; simp at he
    | cls p =>
      cases s with
      | nil => simp [run] at h
      | cons c rest =>
        simp only [run] at h
        split at h
        · simp only [List.mem_singleton] at h; subst h; intro e he; simp at he
        · simp at h
    | cat a b =>
      simp only [run, List.mem_flatMap, List.mem_map] at h
      obtain ⟨x1, hx1, y, hy, hxy⟩ := h
      subst hxy
      intro e he
      simp only [mergeCaps, List.mem_append] at he
      rcases he with he | he
      · obtain ⟨b0, hb0, hrest⟩ := ih b (lastOpt prev x1.1) x1.2.1 y hy e he
        exact ⟨b0, by simp only [grpBodies, List.mem_append]; exact Or.inr hb0, hrest⟩
      · obtain ⟨b0, hb0, hrest⟩ := ih a prev s x1 hx1 e he
        exact ⟨b0, by simp only [grpBodies, List.mem_append]; exact Or.inl hb0, hrest⟩
    | alt a b =>
      simp only [run, List.mem_append] at h
      rcases h with h | h
      · intro e he
        obtain ⟨b0, hb0, hrest⟩ := ih a prev s x h e he
        exact ⟨b0, by simp only [grpBodies, List.mem_append]; exact Or.inl hb0, hrest⟩
      · intro e he
        obtain ⟨b0, hb0, hrest⟩ := ih b prev s x h e he
        exact ⟨b0, by simp only [grpBodies, List.mem_append]; exact Or.inr hb0, hrest⟩
    | opt a =>
      simp only [run, List.mem_append, List.mem_singleton] at h
      rcases h with h | h
      · intro e he
        obtain ⟨b0, hb0, hrest⟩ := ih a prev s x h e he
        exact ⟨b0, by simpa [grpBodies] using hb0, hrest⟩
      · subst h; intro e he; simp at he
    | starG a =>
      simp only [run, List.mem_append, List.mem_singleton] at h
      rcases h with h | h
      · simp only [List.mem_flatMap] at h
        obtain ⟨x1, hx1, h2⟩ := h
        split at h2
        · simp at h2
        · simp only [List.mem_map] at h2
          obtain ⟨y, hy, hxy⟩ := h2
          subst hxy
          intro e he
          simp only [mergeCaps, List.mem_append] at he
          rcases he with he | he
          · obtain ⟨b0, hb0, hrest⟩ := ih (starG a) (lastOpt prev x1.1) x1.2.1 y hy e he
            exact ⟨b0, hb0, hrest⟩
          · obtain ⟨b0, hb0, hrest⟩ := ih a prev s x1 hx1 e he
            exact ⟨b0, by simpa [grpBodies] using hb0, hrest⟩
      · subst h; intro e he; simp at he
    | lazyStar a =>
      simp only [run, List.mem_cons] at h
      rcases h with h | h
      · subst h; intro e he; simp at he
      · simp only [List.mem_flatMap] at h
        obtain ⟨x1, hx1, h2⟩ := h
        split at h2
        · simp at h2
        · simp only [List.mem_map] at h2
          obtain ⟨y, hy, hxy⟩ := h2
          subst hxy
          intro e he
          simp only [mergeCaps, List.mem_append] at he
          rcases he with he | he
          · obtain ⟨b0, hb0, hrest⟩ := ih (lazyStar a) (lastOpt prev x1.1) x1.2.1 y hy e he
            exact ⟨b0, hb0, hrest⟩
          · obtain ⟨b0, hb0, hrest⟩ := ih a prev s x1 hx1 e he
            exact ⟨b0, by simpa [grpBodies] using hb0, hrest⟩
    | grp n a =>
      simp only [run, List.mem_map] at h
      obtain ⟨x1, hx1, hxy⟩ := h
      subst hxy
      intro e he
      simp only [List.mem_cons] at he
      rcases he with he | he
      · subst he
        exact ⟨a, by simp [grpBodies], f, prev, s, x1, hx1, rfl⟩
      · obtain ⟨b0, hb0, hrest⟩ := ih a prev s x1 hx1 e he
        exact ⟨b0, by simp only [grpBodies, List.mem_cons]; exact Or.inr hb0, hrest⟩
    | look a =>
      simp only [run] at h
      split at h
      · simp at h
      · simp only [List.mem_singleton] at h; subst h; intro e he; simp at he
    | wb =>
      simp only [run] at h
      split at h
      · simp only [List.mem_singleton] at h; subst h; intro e he; simp at he
      · simp at h
    | eos =>
      cases s with
      | nil =>
        simp only [run, List.mem_singleton] at h
        subst h; intro e he; simp at he
      | cons c t =>
        cases t with
        | nil =>
          simp only [run] at h
          split at h
          · simp only [List.mem_singleton] at h; subst h; intro e he; simp at he
          · simp at h
        | cons c2 t2 => simp [run] at h

/-- When `headPred` reports a test, every match starts with a character
passing it. -/
theorem run_headPred : ∀ (f : Nat) (r : RE) (prev : Option Char) (s : List Char)
    (x : List Char × List Char × Caps) (p : Char → Bool), x ∈ run f r prev s →
    headPred r = some p → ∃ c t, x.1 = c :: t ∧ p c = true := by
  intro f
  induction f with
  | zero => intro r prev s x p h; simp [run] at h
  | succ f ih =>
    intro r prev s x p h hp
    cases r with
    | eps => simp [headPred] at hp
    | cls q =>
      simp only [headPred, Option.some.injEq] at hp
      subst hp
      cases s with
      | nil => simp [run] at h
      | cons c rest =>
        simp only [run] at h
        by_cases hc : q c = true
        · rw [if_pos hc] at h
          simp only [List.mem_singleton] at h
          subst h
          exact ⟨c, [], rfl, hc⟩
        · rw [if_neg hc] at h; simp at h
    | cat a b =>
      simp only [headPred] at hp
      split at hp
      · simp only [run, List.mem_flatMap, List.mem_map] at h
        obtain ⟨x1, hx1, y, hy, hxy⟩ := h
        subst hxy
        obtain ⟨c, t, hct, hc⟩ := ih a prev s x1 p hx1 hp
        exact ⟨c, t ++ y.1, by simp [hct], hc⟩
      · simp at hp
    | alt a b => simp [headPred] at hp
    | opt a => simp [headPred] at hp
    | starG a => simp [headPred] at hp
    | lazyStar a => simp [headPred] at hp
    | grp n a =>
      simp only [headPred] at hp
      simp only [run, List.mem_map] at h
      obtain ⟨x1, hx1, hxy⟩ := h
      subst hxy
      exact ih a prev s x1 p hx1 hp
    | look a => simp [headPred] at hp
    | wb => simp [headPred] at hp
    | eos => simp [headPred] at hp

/-- Matches of a rigid pattern satisfy the tests pointwise. -/
theorem run_rigid : ∀ (f : Nat) (ps : List (Char → Bool)) (prev : Option Char)
    (s : List Char) (x : List Char × List Char × Caps),
    x ∈ run f (rigid ps) prev s →
    List.Forall₂ (fun p c => p c = true) ps x.1 := by
  intro f
  induction f with
  | zero => intro ps prev s x h; simp [run] at h
  | succ f ih =>
    intro ps prev s x h
    cases ps with
    | nil =>
      simp only [rigid, run, List.mem_singleton] at h
      subst h
      exact List.Forall₂.nil
    | cons p ps' =>
      simp only [rigid, run, List.mem_flatMap, List.mem_map] at h
      obtain ⟨x1, hx1, y, hy, hxy⟩ := h
      subst hxy
      have hys := ih ps' (lastOpt prev x1.1) x1.2.1 y hy
      cases f with
      | zero => simp [run] at hx1
      | succ f2 =>
        cases s with
        | nil => simp [run] at hx1
        | cons c rest =>
          simp only [run] at hx1
          by_cases hc : p c = true
          · rw [if_pos hc] at hx1
            simp only [List.mem_singleton] at hx1
            subst hx1
            exact List.Forall₂.cons hc hys
          · rw [if_neg hc] at hx1; simp at hx1

/-- A greedy star over a character class consumes only characters of the
class. -/
theorem run_starCls : ∀ (f : Nat) (p : Char → Bool) (prev : Option Char)
    (s : List Char) (x : List Char × List Char × Caps),
    x ∈ run f (starG (cls p)) prev s → ∀ c ∈ x.1, p c = true := by
  intro f
  induction f with
  | zero => intro p prev s x h; simp [run] at h
  | succ f ih =>
    intro p prev s x h
    simp only [run, List.mem_append, List.mem_singleton] at h
    rcases h with h | h
    · simp only [List.mem_flatMap] at h
      obtain ⟨x1, hx1, h2⟩ := h
      split at h2
      · simp at h2
      · simp only [List.mem_map] at h2
        obtain ⟨y, hy, hxy⟩ := h2
        subst hxy
        have hys := ih p (lastOpt prev x1.1) x1.2.1 y hy
        intro c hc
        simp only [List.mem_append] at hc
        rcases hc with hc | hc
        · cases f with
          | zero => simp [run] at hx1
          | succ f2 =>
            cases s with
            | nil => simp [run] at hx1
            | cons c0 rest =>
              simp only [run] at hx1
              by_cases hc0 : p c0 = true
              · rw [if_pos hc0] at hx1
                simp only [List.mem_singleton] at hx1
                subst hx1
                simp only [List.mem_singleton] at hc
                subst hc; exact hc0
              · rw [if_neg hc0] at hx1; simp at hx1
        · exact hys c hc
    · subst h; intro c hc; simp at hc

/-- An optional character class consumes nothing or one class
character. -/
theorem run_optCls : ∀ (f : Nat) (p : Char → Bool) (prev : Option Char)
    (s : List Char) (x : List Char × List Char × Caps),
    x ∈ run f (opt (cls p)) prev s →
    x.1 = [] ∨ ∃ c, x.1 = [c] ∧ p c = true := by
  intro f p prev s x h
  cases f with
  | zero => simp [run] at h
  | succ f =>
    simp only [run, List.mem_append, List.mem_singleton] at h
    rcases h with h | h
    · cases f with
      | zero => simp [run] at h
      | succ f2 =>
        cases s with
        | nil => simp [run] at h
        | cons c rest =>
          simp only [run] at h
          by_cases hc : p c = true
          · rw [if_pos hc] at h
            simp only [List.mem_singleton] at h
            subst h
            exact Or.inr ⟨c, rfl, hc⟩
          · rw [if_neg hc] at h; simp at h
    · subst h; exact Or.inl rfl

/-- Inversion for concatenation. -/
theorem run_cat_elim {f : Nat} {a b : RE} {prev : Option Char} {s : List Char}
    {x : List Char × List Char × Caps} (h : x ∈ run f (cat a b) prev s) :
    ∃ (f' : Nat) (x1 y : List Char × List Char × Caps),
      x1 ∈ run f' a prev s ∧ y ∈ run f' b (lastOpt prev x1.1) x1.2.1 ∧
      x.1 = x1.1 ++ y.1 ∧ x.2.1 = y.2.1 ∧ x.2.2 = mergeCaps x1.2.2 y.2.2 := by
  cases f with
  | zero => simp [run] at h
  | succ f =>
    simp only [run, List.mem_flatMap, List.mem_map] at h
    obtain ⟨x1, hx1, y, hy, hxy⟩ := h
    subst hxy
    exact ⟨f, x1, y, hx1, hy, rfl, rfl, rfl⟩

/-- Inversion for groups. -/
theorem run_grp_elim {f : Nat} {n : Nat} {a : RE} {prev : Option Char}
    {s : List Char} {x : List Char × List Char × Caps}
    (h : x ∈ run f (grp n a) prev s) :
    ∃ (f' : Nat) (x1 : List Char × List Char × Caps),
      x1 ∈ run f' a prev s ∧ x.1 = x1.1 ∧ x.2.1 = x1.2.1 ∧
      x.2.2 = (n, x1.1) :: x1.2.2 := by
  cases f with
  | zero => simp [run] at h
  | succ f =>
    simp only [run, List.mem_map] at h
    obtain ⟨x1, hx1, hxy⟩ := h
    subst hxy
    exact ⟨f, x1, hx1, rfl, rfl, rfl⟩

/-- Soundness of the scanner: any reported match really occurs in the
subject, at the reported split, as a match of `r` on the corresponding
suffix. -/
theorem searchGo_sound (r : RE) : ∀ (s : List Char) (prev : Option Char)
    (x : List Char × List Char × Caps × Option Char),
    searchGo r prev s = some x →
    ∃ u prevAt, s = u ++ (x.1 ++ x.2.1) ∧
      (x.1, x.2.1, x.2.2.1) ∈ run (bigFuel r (x.1 ++ x.2.1)) r prevAt (x.1 ++ x.2.1) := by
  intro s
  induction s with
  | nil =>
    intro prev x h
    rw [searchGo] at h
    cases hh : (run (bigFuel r []) r prev []).head? with
    | none => rw [hh] at h; simp at h
    | some x0 =>
      rw [hh] at h
      simp only [Option.some.injEq] at h
      subst h
      have hm : x0 ∈ run (bigFuel r []) r prev [] := by
        cases hl : run (bigFuel r []) r prev [] with
        | nil => rw [hl] at hh; simp at hh
        | cons y ys =>
          rw [hl] at hh
          simp only [List.head?_cons, Option.some.injEq] at hh
          rw [← hh]
          exact List.mem_cons_self _ _
      have hs := run_split _ r prev [] x0 hm
      refine ⟨[], prev, by simp [hs], ?_⟩
      simpa [hs] using hm
  | cons c rest ih =>
    intro prev x h
    rw [searchGo] at h
    cases hh : (run (bigFuel r (c :: rest)) r prev (c :: rest)).head? with
    | none =>
      rw [hh] at h
      obtain ⟨u, prevAt, hs, hmem⟩ := ih (some c) x h
      exact ⟨c :: u, prevAt, by simp [hs], hmem⟩
    | some x0 =>
      rw [hh] at h
      simp only [Option.some.injEq] at h
      subst h
      have hm : x0 ∈ run (bigFuel r (c :: rest)) r prev (c :: rest) := by
        cases hl : run (bigFuel r (c :: rest)) r prev (c :: rest) with
        | nil => rw [hl] at hh; simp at hh
        | cons y ys =>
          rw [hl] at hh
          simp only [List.head?_cons, Option.some.injEq] at hh
          rw [← hh]
          exact List.mem_cons_self _ _
      have hs := run_split _ r prev (c :: rest) x0 hm
      refine ⟨[], prev, by simp [hs], ?_⟩
      simpa [hs] using hm

/-- Soundness of `re.search`: the consumed text and remaining text
reassemble the subject, and the match is a `run` result on the matched
suffix. -/
theorem searchRE_sound {r : RE} {s : List Char} {y : List Char × List Char × Caps}
    (h : searchRE r s = some y) :
    ∃ u prevAt, s = u ++ (y.1 ++ y.2.1) ∧
      y ∈ run (bigFuel r (y.1 ++ y.2.1)) r prevAt (y.1 ++ y.2.1) := by
  unfold searchRE at h
  cases hx : searchGo r none s with
  | none => rw [hx] at h; simp at h
  | some x =>
    rw [hx] at h
    simp only [Option.map_some', Option.some.injEq] at h
    subst h
    obtain ⟨u, prevAt, hs, hmem⟩ := searchGo_sound r s none x hx
    exact ⟨u, prevAt, hs, hmem⟩

/-- The consumed text of a search result occurs in the subject. -/
theorem searchRE_subseg {r : RE} {s : List Char} {y : List Char × List Char × Caps}
    (h : searchRE r s = some y) : SubSeg y.1 s := by
  obtain ⟨u, prevAt, hs, _⟩ := searchRE_sound h
  exact ⟨u, y.2.1, by simpa using hs⟩

/-- A search result consumes at least `minLen r` characters. -/
theorem searchRE_minLen {r : RE} {s : List Char} {y : List Char × List Char × Caps}
    (h : searchRE r s = some y) : minLen r ≤ y.1.length := by
  obtain ⟨u, prevAt, hs, hmem⟩ := searchRE_sound h
  exact run_minLen _ r prevAt _ y hmem

/-- Captures of a search result occur in the subject. -/
theorem searchRE_caps_subseg {r : RE} {s : List Char} {y : List Char × List Char × Caps}
    (h : searchRE r s = some y) : ∀ e ∈ y.2.2, SubSeg e.2 s := by
  obtain ⟨u, prevAt, hs, hmem⟩ := searchRE_sound h
  intro e he
  have h1 := run_caps _ r prevAt _ y hmem e he
  exact subseg_trans h1 (subseg_of_suffix hs)

/-- Groups listed by `mustBind` are bound in every search result. -/
theorem searchRE_mustBind {r : RE} {s : List Char} {y : List Char × List Char × Caps}
    (h : searchRE r s = some y) : ∀ n ∈ mustBind r, ∃ cs, (n, cs) ∈ y.2.2 := by
  obtain ⟨u, prevAt, hs, hmem⟩ := searchRE_sound h
  exact run_mustBind _ r prevAt _ y hmem

/-- Captures of a search result come from runs of group bodies. -/
theorem searchRE_caps_body {r : RE} {s : List Char} {y : List Char × List Char × Caps}
    (h : searchRE r s = some y) : ∀ e ∈ y.2.2,
    ∃ b, (e.1, b) ∈ grpBodies r ∧
      ∃ (f' : Nat) (prev' : Option Char) (s' : List Char)
        (x1 : List Char × List Char × Caps),
        x1 ∈ run f' b prev' s' ∧ x1.1 = e.2 := by
  obtain ⟨u, prevAt, hs, hmem⟩ := searchRE_sound h
  exact run_caps_body _ r prevAt _ y hmem

/-- Head of `findAllAux` at positive fuel is a scanner result. -/
theorem findAllAux_succ_head {r : RE} {f : Nat} {prev : Option Char} {s : List Char}
    {m : List Char × Caps} {ms : List (List Char × Caps)}
    (h : findAllAux r (f + 1) prev s = m :: ms) :
    ∃ rem prev', searchGo r prev s = some (m.1, rem, m.2, prev') := by
  rw [findAllAux] at h
  cases hh : searchGo r prev s with
  | none => rw [hh] at h; simp at h
  | some q =>
    obtain ⟨c, rem, g, prev'⟩ := q
    rw [hh] at h
    simp only [List.cons.injEq] at h
    obtain ⟨h1, h2⟩ := h
    subst h1
    exact ⟨rem, prev', rfl⟩

/-- Head of `re.findall` is the leftmost search result. -/
theorem findAll_head {r : RE} {s : List Char} {m : List Char × Caps}
    {ms : List (List Char × Caps)} (h : findAll r s = m :: ms) :
    ∃ rem prev', searchGo r none s = some (m.1, rem, m.2, prev') := by
  unfold findAll at h
  exact findAllAux_succ_head h

/-- A full match pins the word's length from below. -/
theorem fullmatchB_minLen {r : RE} {w : List Char} (h : fullmatchB r w = true) :
    minLen r ≤ w.length := by
  unfold fullmatchB at h
  simp only [List.any_eq_true] at h
  obtain ⟨x, hx, he⟩ := h
  have hsplit := run_split _ r none w x hx
  have hlen := run_minLen _ r none w x hx
  rw [List.isEmpty_iff] at he
  rw [he, List.append_nil] at hsplit
  rw [hsplit] at hlen
  exact hlen

/-- If some group `n` entry exists, `getGrp` returns a bound value. -/
theorem getGrp_mem_of_bound {n : Nat} {g : Caps} (h : ∃ cs, (n, cs) ∈ g) :
    (n, getGrp n g) ∈ g := by
  unfold getGrp
  cases hf : g.find? (fun e => e.1 == n) with
  | none =>
    obtain ⟨cs, hcs⟩ := h
    rw [List.find?_eq_none] at hf
    have := hf (n, cs) hcs
    simp at this
  | some e =>
    have hmem := List.mem_of_find?_eq_some hf
    have hp := List.find?_some hf
    simp only [beq_iff_eq] at hp
    rw [← hp]
    exact hmem

/-! Facts about the character classes and the string helpers. -/

/-- Whitespace is never an uppercase letter. -/
theorem ws_of_upper {c : Char} (h : isUpperB c = true) : isWsB c = false := by
  cases hw : isWsB c with
  | false => rfl
  | true =>
    simp only [isWsB, Bool.or_eq_true, beq_iff_eq] at hw
    rcases hw with ((((rfl | rfl) | rfl) | rfl) | rfl) | rfl <;> simp [isUpperB] at h

/-- Whitespace is never a digit. -/
theorem ws_of_digit {c : Char} (h : isDigitB c = true) : isWsB c = false := by
  cases hw : isWsB c with
  | false => rfl
  | true =>
    simp only [isWsB, Bool.or_eq_true, beq_iff_eq] at hw
    rcases hw with ((((rfl | rfl) | rfl) | rfl) | rfl) | rfl <;> simp [isDigitB] at h

/-- What `str.strip()` keeps occurs in the original string. -/
theorem trimWs_subseg (l : List Char) : SubSeg (trimWs l) l := by
  have h1 : List.dropWhile isWsB l <:+ l := List.dropWhile_suffix _
  obtain ⟨u, hu⟩ := h1
  have h2 : List.dropWhile isWsB (List.dropWhile isWsB l).reverse <:+
      (List.dropWhile isWsB l).reverse := List.dropWhile_suffix _
  obtain ⟨u2, hu2⟩ := h2
  refine ⟨u, u2.reverse, ?_⟩
  have h3 := congrArg List.reverse hu2
  simp only [List.reverse_append, List.reverse_reverse] at h3
  calc l = u ++ List.dropWhile isWsB l := hu.symm
    _ = u ++ (trimWs l ++ u2.reverse) := by rw [← h3]; rfl
    _ = u ++ trimWs l ++ u2.reverse := by rw [List.append_assoc]

/-- A string containing a non-whitespace character does not strip to
nothing. -/
theorem trimWs_ne_of_mem {c : Char} {l : List Char} (hc : c ∈ l)
    (hw : isWsB c = false) : trimWs l ≠ [] := by
  intro h
  unfold trimWs at h
  rw [List.reverse_eq_nil_iff, List.dropWhile_eq_nil_iff] at h
  have hcd : c ∈ List.dropWhile isWsB l := by
    have := List.takeWhile_append_dropWhile isWsB l
    rw [← this] at hc
    rcases List.mem_append.mp hc with hc1 | hc1
    · have := List.mem_takeWhile_imp hc1
      rw [this] at hw; cases hw
    · exact hc1
  have := h c (List.mem_reverse.mpr hcd)
  rw [this] at hw; cases hw

/-- Words produced by `str.split()` are non-empty and contain no
whitespace. -/
theorem pysplitGo_sound : ∀ (t acc : List Char), (∀ c ∈ acc, isWsB c = false) →
    ∀ w ∈ pysplitGo acc t, w ≠ [] ∧ ∀ c ∈ w, isWsB c = false := by
  intro t
  induction t with
  | nil =>
    intro acc hacc w hw
    simp only [pysplitGo] at hw
    split at hw
    · simp at hw
    · next hne =>
      simp only [List.mem_singleton] at hw
      subst hw
      refine ⟨?_, fun c hc => hacc c (List.mem_reverse.mp hc)⟩
      rw [Ne, List.reverse_eq_nil_iff]
      intro hnil
      rw [hnil] at hne
      simp at hne
  | cons c0 t ih =>
    intro acc hacc w hw
    simp only [pysplitGo] at hw
    by_cases hws : isWsB c0 = true
    · rw [if_pos hws] at hw
      split at hw
      · exact ih [] (by simp) w hw
      · next hne =>
        simp only [List.mem_cons] at hw
        rcases hw with hw | hw
        · subst hw
          refine ⟨?_, fun c hc => hacc c (List.mem_reverse.mp hc)⟩
          rw [Ne, List.reverse_eq_nil_iff]
          intro hnil
          rw [hnil] at hne
          simp at hne
        · exact ih [] (by simp) w hw
    · rw [if_neg hws] at hw
      refine ih (c0 :: acc) ?_ w hw
      intro c hc
      rcases List.mem_cons.mp hc with rfl | hc
      · exact Bool.not_eq_true _ ▸ Bool.of_not_eq_true hws
      · exact hacc c hc

/-- Words of `pysplit` are non-empty and whitespace-free. -/
theorem pysplit_sound {l w : List Char} (hw : w ∈ pysplit l) :
    w ≠ [] ∧ ∀ c ∈ w, isWsB c = false :=
  pysplitGo_sound l [] (by simp) w hw

/-- Joining a list whose first word is non-empty gives a non-empty
string. -/
theorem joinSp_ne_nil {w : List Char} {ws : List (List Char)} (hw : w ≠ []) :
    joinSp (w :: ws) ≠ [] := by
  cases ws with
  | nil => simpa [joinSp] using hw
  | cons w2 ws2 =>
    simp only [joinSp]
    intro h
    rcases List.append_eq_nil.mp h with ⟨_, h2⟩
    cases h2

/-- A character of the first word occurs in the join. -/
theorem mem_joinSp_head {c : Char} {w : List Char} {ws : List (List Char)}
    (hc : c ∈ w) : c ∈ joinSp (w :: ws) := by
  cases ws with
  | nil => simpa [joinSp] using hc
  | cons w2 ws2 =>
    simp only [joinSp]
    exact List.mem_append_left _ hc

/-- Reflection of the "starts with" test. -/
theorem startsWithB_iff : ∀ (a b : List Char),
    startsWithB a b = true ↔ ∃ v, b = a ++ v := by
  intro a
  induction a with
  | nil =>
    intro b
    simp only [startsWithB, List.nil_append, true_iff]
    exact ⟨b, rfl⟩
  | cons c as ih =>
    intro b
    cases b with
    | nil =>
      simp only [startsWithB]
      constructor
      · intro h; simp at h
      · rintro ⟨v, hv⟩; cases hv
    | cons d bs =>
      simp only [startsWithB, Bool.and_eq_true, beq_iff_eq]
      constructor
      · rintro ⟨rfl, h2⟩
        obtain ⟨v, rfl⟩ := (ih bs).mp h2
        exact ⟨v, rfl⟩
      · rintro ⟨v, hv⟩
        injection hv with h1 h2
        exact ⟨h1.symm, (ih bs).mpr ⟨v, h2⟩⟩

/-- Reflection of the substring test. -/
theorem containsSegB_iff : ∀ (b a : List Char),
    containsSegB a b = true ↔ SubSeg a b := by
  intro b
  induction b with
  | nil =>
    intro a
    simp only [containsSegB]
    rw [startsWithB_iff]
    constructor
    · rintro ⟨v, hv⟩
      exact ⟨[], v, hv⟩
    · rintro ⟨u, v, huv⟩
      cases u with
      | nil => exact ⟨v, by simpa using huv⟩
      | cons u0 us => cases huv
  | cons d bs ih =>
    intro a
    simp only [containsSegB, Bool.or_eq_true]
    rw [startsWithB_iff, ih]
    constructor
    · rintro (⟨v, hv⟩ | ⟨u, v, huv⟩)
      · exact ⟨[], v, by simpa using hv⟩
      · exact ⟨d :: u, v, by simp [huv]⟩
    · rintro ⟨u, v, huv⟩
      cases u with
      | nil => exact Or.inl ⟨v, by simpa using huv⟩
      | cons u0 us =>
        injection huv with h1 h2
        exact Or.inr ⟨us, v, h2⟩

/-- A fold that always keeps one of its two arguments lands in the
initial value or the list — Python's `max` does. -/
theorem foldl_choice_mem {α : Type} (g : α → α → α)
    (hg : ∀ b x, g b x = b ∨ g b x = x) :
    ∀ (ms : List α) (m : α), ms.foldl g m ∈ m :: ms := by
  intro ms
  induction ms with
  | nil => intro m; simp
  | cons x xs ih =>
    intro m
    simp only [List.foldl_cons]
    rcases hg m x with h | h <;> rw [h]
    · rcases List.mem_cons.mp (ih m) with h2 | h2
      · rw [h2]; exact List.mem_cons_self _ _
      · exact List.mem_cons_of_mem _ (List.mem_cons_of_mem _ h2)
    · rcases List.mem_cons.mp (ih x) with h2 | h2
      · rw [h2]; exact List.mem_cons_of_mem _ (List.mem_cons_self _ _)
      · exact List.mem_cons_of_mem _ (List.mem_cons_of_mem _ h2)

/-- Decomposition of a pointwise match against an appended test list. -/
theorem forall2_append_decomp {R : (Char → Bool) → Char → Prop} :
    ∀ (ps qs : List (Char → Bool)) (l : List Char),
    List.Forall₂ R (ps ++ qs) l →
    ∃ l1 l2, l = l1 ++ l2 ∧ List.Forall₂ R ps l1 ∧ List.Forall₂ R qs l2 := by
  intro ps
  induction ps with
  | nil =>
    intro qs l h
    exact ⟨[], l, rfl, List.Forall₂.nil, h⟩
  | cons p ps' ih =>
    intro qs l h
    cases h with
    | cons hc ht =>
      next c l' =>
        obtain ⟨l1, l2, rfl, h1, h2⟩ := ih qs l' ht
        exact ⟨c :: l1, l2, rfl, List.Forall₂.cons hc h1, h2⟩

/-- A pointwise match against replicated tests: fixed length, all
passing. -/
theorem forall2_replicate {R : (Char → Bool) → Char → Prop}
    {q : Char → Bool} : ∀ (n : Nat) (l : List Char),
    List.Forall₂ R (List.replicate n q) l →
    l.length = n ∧ ∀ c ∈ l, R q c := by
  intro n
  induction n with
  | zero =>
    intro l h
    rw [List.replicate_zero] at h
    cases h
    exact ⟨rfl, by simp⟩
  | succ n ih =>
    intro l h
    rw [List.replicate_succ] at h
    cases h with
    | cons hc ht =>
      next c l' =>
        obtain ⟨hlen, hall⟩ := ih l' ht
        refine ⟨by simp [hlen], ?_⟩
        intro d hd
        rcases List.mem_cons.mp hd with rfl | hd
        · exact hc
        · exact hall d hd

/-- The tests of a case-insensitive literal pin the matched characters
up to lowercasing. -/
theorem forall2_ci : ∀ (lits l : List Char),
    List.Forall₂ (fun p c => p c = true)
      (lits.map fun d => fun c => c.toLower == d.toLower) l →
    l.map Char.toLower = lits.map Char.toLower := by
  intro lits
  induction lits with
  | nil =>
    intro l h
    simp only [List.map_nil] at h
    cases h
    rfl
  | cons d ds ih =>
    intro l h
    simp only [List.map_cons] at h
    cases h with
    | cons hc ht =>
      next c l' =>
        simp only [beq_iff_eq] at hc
        simp only [List.map_cons, hc, ih l' ht]

/-! Totality and traceability of the extractors (for C4). -/

/-- Soundness of the date extractor's pattern loop. -/
theorem firstSearchG0_sound : ∀ (ps : List RE) (t s : List Char),
    firstSearchG0 ps t = some s → SubSeg s t ∧ ∃ p ∈ ps, minLen p ≤ s.length := by
  intro ps
  induction ps with
  | nil => intro t s h; simp [firstSearchG0] at h
  | cons p ps' ih =>
    intro t s h
    rw [firstSearchG0] at h
    cases hs : searchRE p t with
    | some y =>
      rw [hs] at h
      simp only [Option.some.injEq] at h
      subst h
      exact ⟨searchRE_subseg hs, p, List.mem_cons_self _ _, searchRE_minLen hs⟩
    | none =>
      rw [hs] at h
      obtain ⟨h1, q, hq, h2⟩ := ih t s h
      exact ⟨h1, q, List.mem_cons_of_mem _ hq, h2⟩

/-- Any extracted date is a non-empty piece of the input. -/
theorem extract_dob_sound {t s : List Char} (h : extract_date_of_birth t = some s) :
    s ≠ [] ∧ SubSeg s t := by
  obtain ⟨h1, p, hp, h2⟩ := firstSearchG0_sound datePatterns t s h
  refine ⟨?_, h1⟩
  have hmin : 1 ≤ minLen p := by
    simp only [datePatterns, List.mem_cons, List.not_mem_nil, or_false] at hp
    rcases hp with rfl | rfl | rfl | rfl <;> decide
  intro hnil
  rw [hnil] at h2
  simp only [List.length_nil, Nat.le_zero] at h2
  omega

/-- Soundness of the identifier extractor's pattern loop. -/
theorem firstFindallG1_sound : ∀ (ps : List RE) (t s : List Char),
    firstFindallG1 ps t = some s →
    ∃ p ∈ ps, ∃ (y : List Char × List Char × Caps),
      searchRE p t = some y ∧ s = trimWs (getGrp 1 y.2.2) := by
  intro ps
  induction ps with
  | nil => intro t s h; simp [firstFindallG1] at h
  | cons p ps' ih =>
    intro t s h
    rw [firstFindallG1] at h
    cases hf : findAll p t with
    | nil =>
      rw [hf] at h
      obtain ⟨q, hq, y, hy, hs⟩ := ih t s h
      exact ⟨q, List.mem_cons_of_mem _ hq, y, hy, hs⟩
    | cons m ms =>
      rw [hf] at h
      simp only [Option.some.injEq] at h
      obtain ⟨rem, prev', hgo⟩ := findAll_head hf
      refine ⟨p, List.mem_cons_self _ _, (m.1, rem, m.2), ?_, ?_⟩
      · unfold searchRE
        rw [hgo]
        rfl
      · rw [← h]

/-- Any extracted identifier is a non-empty piece of the input. -/
theorem extract_nid_sound {t s : List Char} (h : extract_nid_number t = some s) :
    s ≠ [] ∧ SubSeg s t := by
  obtain ⟨p, hp, y, hy, rfl⟩ := firstFindallG1_sound nidPatterns t s h
  have hbind : ∃ cs, ((1 : Nat), cs) ∈ y.2.2 := by
    apply searchRE_mustBind hy
    simp only [nidPatterns, List.mem_cons, List.not_mem_nil, or_false] at hp
    rcases hp with rfl | rfl | rfl | rfl | rfl <;> decide
  have hmem := getGrp_mem_of_bound hbind
  have hsubcap : SubSeg (getGrp 1 y.2.2) t :=
    searchRE_caps_subseg hy ((1 : Nat), getGrp 1 y.2.2) hmem
  refine ⟨?_, subseg_trans (trimWs_subseg _) hsubcap⟩
  obtain ⟨b, hb, f', prev', s', x1, hx1, hcons⟩ :=
    searchRE_caps_body hy ((1 : Nat), getGrp 1 y.2.2) hmem
  have hhp : headPred b = some isDigitB := by
    simp only [nidPatterns, List.mem_cons, List.not_mem_nil, or_false] at hp
    rcases hp with rfl | rfl | rfl | rfl | rfl
    · rw [show grpBodies nidPat1 = [(1, nidGroupedBody)] from rfl] at hb
      simp only [List.mem_singleton, Prod.mk.injEq, true_and] at hb
      rw [hb]
      rfl
    · rw [show grpBodies nidPat2 = [(1, reps 10 17 digitC)] from rfl] at hb
      simp only [List.mem_singleton, Prod.mk.injEq, true_and] at hb
      rw [hb]
      rfl
    · rw [show grpBodies nidPat3 = [(1, nidLabelBody)] from rfl] at hb
      simp only [List.mem_singleton, Prod.mk.injEq, true_and] at hb
      rw [hb]
      rfl
    · rw [show grpBodies nidPat4 = [(1, nidLabelBody)] from rfl] at hb
      simp only [List.mem_singleton, Prod.mk.injEq, true_and] at hb
      rw [hb]
      rfl
    · rw [show grpBodies nidPat5 = [(1, nidLabelBody)] from rfl] at hb
      simp only [List.mem_singleton, Prod.mk.injEq, true_and] at hb
      rw [hb]
      rfl
  obtain ⟨c, t', hct, hc⟩ := run_headPred f' b prev' s' x1 isDigitB hx1 hhp
  rw [hcons] at hct
  have hct2 : getGrp 1 y.2.2 = c :: t' := hct
  rw [hct2]
  exact trimWs_ne_of_mem (List.mem_cons_self _ _) (ws_of_digit hc)

/-- The honorific branch never returns an empty name. -/
theorem mdBranch_sound {t s : List Char} (h : mdBranch t = some s) : s ≠ [] := by
  unfold mdBranch at h
  cases hg : mdGrp t with
  | none => rw [hg] at h; simp at h
  | some g =>
    rw [hg] at h
    simp only [Option.map_some', Option.some.injEq] at h
    subst h
    simp only [mdPost]
    intro hnil
    rcases List.append_eq_nil.mp hnil with ⟨h1, -⟩
    simp [mdStr] at h1

/-- Words kept by the label-anchored branch's normalization are
non-empty. -/
theorem nameFiltered_words {x : List Char × List Char × Caps} {w : List Char}
    (hw : w ∈ nameFiltered x) : w ≠ [] := by
  unfold nameFiltered at hw
  rw [List.mem_filterMap] at hw
  obtain ⟨a, ha, hfa⟩ := hw
  split at hfa
  · simp only [Option.some.injEq] at hfa
    subst hfa
    simp [mdDot]
  · split at hfa
    · next hfm =>
      simp only [Option.some.injEq] at hfa
      subst hfa
      have hlen := fullmatchB_minLen hfm
      have h1 : (1 : Nat) ≤ minLen upPlus := by decide
      intro hnil
      rw [hnil] at hlen
      simp only [List.length_nil, Nat.le_zero] at hlen
      omega
    · simp at hfa

/-- The label-anchored branch never returns an empty name. -/
theorem nameBranch_sound {t s : List Char} (h : nameBranch t = some s) : s ≠ [] := by
  unfold nameBranch at h
  split at h
  · simp at h
  · next x hs =>
    split at h
    · simp at h
    · next hne =>
      simp only [Option.some.injEq] at h
      subst h
      cases hX : nameFiltered x with
      | nil => rw [hX] at hne; simp at hne
      | cons w rest =>
        refine joinSp_ne_nil ?_
        apply nameFiltered_words
        rw [hX]
        exact List.mem_cons_self _ _

/-- The context-anchored branch never returns an empty name. -/
theorem dobCtxBranch_sound {t s : List Char} (h : dobCtxBranch t = some s) :
    s ≠ [] := by
  unfold dobCtxBranch at h
  split at h
  · simp at h
  · next x hs =>
    split at h
    · simp only [Option.some.injEq] at h
      subst h
      have hbind : ∃ cs, ((1 : Nat), cs) ∈ x.2.2 :=
        searchRE_mustBind hs 1 (by decide)
      have hmem := getGrp_mem_of_bound hbind
      obtain ⟨b, hb, f', prev', s', x1, hx1, hcons⟩ :=
        searchRE_caps_body hs ((1 : Nat), getGrp 1 x.2.2) hmem
      rw [show grpBodies dobCtxPat = [(1, dobCtxName)] from rfl] at hb
      simp only [List.mem_singleton, Prod.mk.injEq, true_and] at hb
      obtain ⟨c, t', hct, hc⟩ := run_headPred f' b prev' s' x1 isUpperB hx1
        (by rw [hb]; rfl)
      rw [hcons] at hct
      have hct2 : getGrp 1 x.2.2 = c :: t' := hct
      rw [hct2]
      exact trimWs_ne_of_mem (List.mem_cons_self _ _) (ws_of_upper hc)
    · simp at h

/-- Every pair kept by the fallback's stoplist filter has a non-blank
name part. -/
theorem fbFilterMatches_snd {t : List Char} {pr : List Char × List Char}
    (hpr : pr ∈ fbFilterMatches t) : ∃ c ∈ pr.2, isWsB c = false := by
  unfold fbFilterMatches at hpr
  rw [List.mem_filterMap] at hpr
  obtain ⟨a, ha, hfa⟩ := hpr
  simp only at hfa
  split at hfa
  · simp at hfa
  · next hne =>
    simp only [Option.some.injEq] at hfa
    subst hfa
    cases hFW : (pysplit (trimWs a.2)).filter (fun w => decide (w ∉ stop14)) with
    | nil => rw [hFW] at hne; simp at hne
    | cons w rest =>
      have hwmem : w ∈ pysplit (trimWs a.2) := by
        have hmem2 : w ∈ (pysplit (trimWs a.2)).filter (fun w => decide (w ∉ stop14)) := by
          rw [hFW]; exact List.mem_cons_self _ _
        exact List.mem_of_mem_filter hmem2
      obtain ⟨hwne, hwws⟩ := pysplit_sound hwmem
      obtain ⟨c0, w', hwc⟩ := List.exists_cons_of_ne_nil hwne
      refine ⟨c0, ?_, hwws c0 (by rw [hwc]; exact List.mem_cons_self _ _)⟩
      show c0 ∈ joinSp (w :: rest)
      exact mem_joinSp_head (by rw [hwc]; exact List.mem_cons_self _ _)

/-- The fallback branch never returns an empty name. -/
theorem fallbackBranch_sound {t s : List Char} (h : fallbackBranch t = some s) :
    s ≠ [] := by
  unfold fallbackBranch at h
  split at h
  · simp at h
  · next m ms hfm =>
    split at h
    · simp at h
    · next hne =>
      simp only [Option.some.injEq] at h
      subst h
      have hbestmem : fbBest m ms ∈ fbFilterMatches t := by
        rw [hfm]
        exact foldl_choice_mem _ (fun b x => by split; exacts [Or.inr rfl, Or.inl rfl]) ms m
      obtain ⟨c0, hc0mem, hc0ws⟩ := fbFilterMatches_snd hbestmem
      unfold fbAssemble
      by_cases h1 : (fbBest m ms).1.isEmpty = true
      · rw [if_pos h1]
        by_cases h2 : (fbBest m ms).2.isEmpty = true
        · exfalso
          apply hne
          unfold fbAssemble
          rw [if_pos h1, if_pos h2]
          rfl
        · rw [if_neg h2]
          simp only [List.nil_append, joinSp]
          exact trimWs_ne_of_mem hc0mem hc0ws
      · rw [if_neg h1]
        rw [List.singleton_append]
        exact joinSp_ne_nil (by simp [mdDot])

/-- `extract_name` never returns an empty name. -/
theorem extract_name_sound {t s : List Char} (h : extract_name t = some s) :
    s ≠ [] := by
  unfold extract_name at h
  cases h1 : mdBranch t with
  | some r =>
    rw [h1] at h
    simp only [Option.some.injEq] at h
    subst h
    exact mdBranch_sound h1
  | none =>
    rw [h1] at h
    cases h2 : nameBranch t with
    | some r =>
      rw [h2] at h
      simp only [Option.some.injEq] at h
      subst h
      exact nameBranch_sound h2
    | none =>
      rw [h2] at h
      cases h3 : dobCtxBranch t with
      | some r =>
        rw [h3] at h
        simp only [Option.some.injEq] at h
        subst h
        exact dobCtxBranch_sound h3
      | none =>
        rw [h3] at h
        exact fallbackBranch_sound h

/-! Soundness of the BO branch (for C10). -/

/-- Any BO identifier reported by `boExtract` has the exact
`120` + digits + whitespace + digits shape, and sits in the text right
after a case-insensitive `BO Account Number` label. -/
theorem boExtract_sound {t s : List Char} (h : boExtract t = some s) :
    BONumberShape s ∧ BOLabeled t s := by
  unfold boExtract at h
  cases hy : searchRE boPat t with
  | none => rw [hy] at h; simp at h
  | some y =>
    rw [hy] at h
    simp only [Option.map_some', Option.some.injEq] at h
    subst h
    obtain ⟨u, prevAt, hts, hmem⟩ := searchRE_sound hy
    unfold boPat at hmem
    obtain ⟨f1, xBO, y1, hxBO, hy1, he1, hr1, hc1⟩ := run_cat_elim hmem
    obtain ⟨f2, xW1, y2, hxW1, hy2, he2, hr2, hc2⟩ := run_cat_elim hy1
    obtain ⟨f3, xAC, y3, hxAC, hy3, he3, hr3, hc3⟩ := run_cat_elim hy2
    obtain ⟨f4, xW2, y4, hxW2, hy4, he4, hr4, hc4⟩ := run_cat_elim hy3
    obtain ⟨f5, xNU, y5, hxNU, hy5, he5, hr5, hc5⟩ := run_cat_elim hy4
    obtain ⟨f6, xW3, y6, hxW3, hy6, he6, hr6, hc6⟩ := run_cat_elim hy5
    obtain ⟨f7, xP, y7, hxP, hy7, he7, hr7, hc7⟩ := run_cat_elim hy6
    obtain ⟨f8, xW4, y8, hxW4, hy8, he8, hr8, hc8⟩ := run_cat_elim hy7
    obtain ⟨f9, xG, hxG, heG, hrG, hcG⟩ := run_grp_elim hy8
    have hnBO : xBO.2.2 = [] := run_nogroups _ _ _ _ _ hxBO rfl
    have hnW1 : xW1.2.2 = [] := run_nogroups _ _ _ _ _ hxW1 rfl
    have hnAC : xAC.2.2 = [] := run_nogroups _ _ _ _ _ hxAC rfl
    have hnW2 : xW2.2.2 = [] := run_nogroups _ _ _ _ _ hxW2 rfl
    have hnNU : xNU.2.2 = [] := run_nogroups _ _ _ _ _ hxNU rfl
    have hnW3 : xW3.2.2 = [] := run_nogroups _ _ _ _ _ hxW3 rfl
    have hnP : xP.2.2 = [] := run_nogroups _ _ _ _ _ hxP rfl
    have hnW4 : xW4.2.2 = [] := run_nogroups _ _ _ _ _ hxW4 rfl
    have hnG : xG.2.2 = [] := run_nogroups _ _ _ _ _ hxG rfl
    have hcaps : y.2.2 = [(1, xG.1)] := by
      rw [hc1, hc2, hc3, hc4, hc5, hc6, hc7, hc8, hcG]
      rw [hnBO, hnW1, hnAC, hnW2, hnNU, hnW3, hnP, hnW4, hnG]
      simp [mergeCaps]
    have hgrp : getGrp 1 y.2.2 = xG.1 := by rw [hcaps]; rfl
    rw [hgrp]
    have hshape : BONumberShape xG.1 := by
      have hF := run_rigid f9 boNumPreds _ _ xG hxG
      unfold boNumPreds at hF
      obtain ⟨l12, l3, hl, hF12, hF3⟩ := forall2_append_decomp _ _ _ hF
      obtain ⟨l1, l2, hl12, hF1, hF2⟩ := forall2_append_decomp _ _ _ hF12
      obtain ⟨l11, l10, hl11, hF11, hF10⟩ := forall2_append_decomp _ _ _ hF1
      obtain ⟨hlen2, hdig2⟩ := forall2_replicate _ _ hF10
      obtain ⟨hlen3, hdig3⟩ := forall2_replicate _ _ hF3
      cases hF11 with
      | cons hq1 hF11b =>
        next c1 l11b =>
          cases hF11b with
          | cons hq2 hF11c =>
            next c2 l11c =>
              cases hF11c with
              | cons hq3 hF11d =>
                next c3 l11d =>
                  cases hF11d
                  cases hF2 with
                  | cons hw hF2b =>
                    next w l2b =>
                      cases hF2b
                      simp only [beq_iff_eq] at hq1 hq2 hq3
                      subst hq1; subst hq2; subst hq3
                      refine ⟨l10, w, l3, ?_, hlen2, hdig2, hw, hlen3, hdig3⟩
                      rw [hl, hl12, hl11]
                      simp
    refine ⟨hshape, ?_⟩
    have hciBO := forall2_ci "BO".toList xBO.1 (run_rigid f1 _ _ _ xBO hxBO)
    have hciAC := forall2_ci "Account".toList xAC.1 (run_rigid f3 _ _ _ xAC hxAC)
    have hciNU := forall2_ci "Number".toList xNU.1 (run_rigid f5 _ _ _ xNU hxNU)
    have hW1 := run_starCls f2 isWsB _ _ xW1 hxW1
    have hW2 := run_starCls f4 isWsB _ _ xW2 hxW2
    have hW3 := run_starCls f6 isWsB _ _ xW3 hxW3
    have hW4 := run_starCls f8 isWsB _ _ xW4 hxW4
    have hPc := run_optCls f7 _ _ _ xP hxP
    refine ⟨u, xBO.1, xW1.1, xAC.1, xW2.1, xNU.1, xW3.1, xP.1, xW4.1, y.2.1,
      ?_, ?_, hW1, ?_, hW2, ?_, hW3, ?_, hW4⟩
    · rw [hts, he1, he2, he3, he4, he5, he6, he7, he8, heG]
      simp [List.append_assoc]
    · rw [lowerEq, hciBO]; decide
    · rw [lowerEq, hciAC]; decide
    · rw [lowerEq, hciNU]; decide
    · rcases hPc with hnil | ⟨c, hc, hcp⟩
      · exact Or.inl hnil
      · simp only [Bool.or_eq_true, beq_iff_eq] at hcp
        rcases hcp with rfl | rfl
        · exact Or.inr (Or.inl (by rw [hc]))
        · exact Or.inr (Or.inr (by rw [hc]))

/-! The claims. -/

/-- C1: for every input text on which both the honorific-anchored rule
and the all-caps fallback rule succeed, `extract_name` returns the
honorific-anchored result, which carries the `"MD: "` head — the
heuristics are a cascade and the first success wins, so the fallback
result is never returned. -/
theorem C1_cascade_md_first (text : List Char) (r f : List Char)
    (hmd : mdBranch text = some r) (_hfb : fallbackBranch text = some f) :
    extract_name text = some r ∧ ∃ rest, r = mdStr ++ rest := by
  constructor
  · unfold extract_name
    rw [hmd]
  · unfold mdBranch at hmd
    cases hg : mdGrp text with
    | none => rw [hg] at hmd; simp at hmd
    | some g =>
      rw [hg] at hmd
      simp only [Option.map_some', Option.some.injEq] at hmd
      subst hmd
      exact ⟨_, rfl⟩

/-- Witness for C1: a text where the honorific rule yields
`MD: ZAKIR HOSSAIN` while the fallback alone would yield
`ZAKIR HOSSAIN`. -/
theorem C1_cascade_md_first_witness :
    mdBranch ("MD: ZAKIR HOSSAIN Date of Birth".toList)
      = some ("MD: ZAKIR HOSSAIN".toList) ∧
    fallbackBranch ("MD: ZAKIR HOSSAIN Date of Birth".toList)
      = some ("ZAKIR HOSSAIN".toList) ∧
    extract_name ("MD: ZAKIR HOSSAIN Date of Birth".toList)
      = some ("MD: ZAKIR HOSSAIN".toList) := by
  have h := C1_cascade_md_first ("MD: ZAKIR HOSSAIN Date of Birth".toList)
    ("MD: ZAKIR HOSSAIN".toList) ("ZAKIR HOSSAIN".toList) (by decide) (by decide)
  exact ⟨by decide, by decide, h.1⟩

/-- C2: on the literal stoplist text, the context-anchored rule rejects
its match (four words, and stoplist words), the result is
`JOHN SMITH`, and in particular `CHROME EXTENSION` is not returned. -/
theorem C2_stoplist_filtering :
    extract_name ("CHROME EXTENSION JOHN SMITH Date of Birth 01/01/2000".toList)
      = some ("JOHN SMITH".toList) ∧
    dobCtxBranch ("CHROME EXTENSION JOHN SMITH Date of Birth 01/01/2000".toList)
      = none ∧
    extract_name ("CHROME EXTENSION JOHN SMITH Date of Birth 01/01/2000".toList)
      ≠ some ("CHROME EXTENSION".toList) :=
  ⟨by decide, by decide, by decide⟩

/-- C3: for any document type other than the three recognized ones, the
router returns the well-formed record with every field absent. -/
theorem C3_router_unknown_type (doc_type : String) (text : List Char)
    (h1 : doc_type ≠ "NID") (h2 : doc_type ≠ "BO") (h3 : doc_type ≠ "TIN") :
    extract_fields_by_type doc_type text = ⟨none, none, none, none, none⟩ := by
  unfold extract_fields_by_type
  rw [if_neg h1, if_neg h2, if_neg h3]
  rfl

/-- Witness for C3 at the unrecognized type `PASSPORT`. -/
theorem C3_router_unknown_type_witness :
    ("PASSPORT" ≠ "NID" ∧ "PASSPORT" ≠ "BO" ∧ "PASSPORT" ≠ "TIN") ∧
    extract_fields_by_type "PASSPORT" ("some text".toList)
      = ⟨none, none, none, none, none⟩ :=
  ⟨⟨by decide, by decide, by decide⟩,
   C3_router_unknown_type "PASSPORT" ("some text".toList)
     (by decide) (by decide) (by decide)⟩

/-- C5: on `NID: 123 456 7890` the extractor returns `123 456 7890`,
and the grouped-digits pattern alone (tried first) already produces
exactly that value — trimmed at the ends, interior spacing kept. -/
theorem C5_grouped_digits_first :
    extract_nid_number ("NID: 123 456 7890".toList)
      = some ("123 456 7890".toList) ∧
    nidFirstG1 nidPat1 ("NID: 123 456 7890".toList)
      = some ("123 456 7890".toList) :=
  ⟨by decide, by decide⟩

/-- C6 (amended): the date extractor performs no semantic validation —
`DOB: 15/03/1999 more text` gives `15/03/1999`, and on an input whose
first pattern match is the impossible date `32/13/2099` that string is
returned verbatim. -/
theorem C6_date_no_validation :
    extract_date_of_birth ("DOB: 15/03/1999 more text".toList)
      = some ("15/03/1999".toList) ∧
    extract_date_of_birth ("DOB: 32/13/2099".toList)
      = some ("32/13/2099".toList) :=
  ⟨by decide, by decide⟩

/-- Counterexample to C6 as stated: `15/03/1999 32/13/2099` contains
`32/13/2099` as a standalone date-shaped token, yet the extractor
returns the earlier first match `15/03/1999`, not `32/13/2099`. -/
theorem C6_counterexample :
    "15/03/1999 32/13/2099".toList
      = "15/03/1999 ".toList ++ "32/13/2099".toList ∧
    extract_date_of_birth ("15/03/1999 32/13/2099".toList)
      = some ("15/03/1999".toList) ∧
    ("15/03/1999".toList : List Char) ≠ "32/13/2099".toList :=
  ⟨by decide, by decide, by decide⟩

/-- C8 (amended): when the honorific rule matches, exactly one trailing
single-letter artifact is dropped: if the matched group splits into
more than one word and its last word is a single letter, the result is
`"MD: "` followed by the words without that last one. -/
theorem C8_strip_one_trailing (text g : List Char) (hg : mdGrp text = some g)
    (h1 : 1 < (pysplit (trimWs g)).length)
    (h2 : ((pysplit (trimWs g)).getLastD []).length = 1) :
    extract_name text = some (mdStr ++ joinSp (pysplit (trimWs g)).dropLast) := by
  unfold extract_name mdBranch
  rw [hg]
  simp only [Option.map_some', Option.some.injEq]
  simp only [mdPost]
  rw [if_pos ⟨h1, h2⟩]

/-- Witness for C8 on `MD: ZAKIR HOSSAIN D Date of Birth`. -/
theorem C8_strip_one_trailing_witness :
    mdGrp ("MD: ZAKIR HOSSAIN D Date of Birth".toList)
      = some ("ZAKIR HOSSAIN D".toList) ∧
    extract_name ("MD: ZAKIR HOSSAIN D Date of Birth".toList)
      = some ("MD: ZAKIR HOSSAIN".toList) := by
  have h := C8_strip_one_trailing ("MD: ZAKIR HOSSAIN D Date of Birth".toList)
    ("ZAKIR HOSSAIN D".toList) (by decide) (by decide) (by decide)
  refine ⟨by decide, ?_⟩
  rw [h]
  decide

/-- Counterexample to C8 as stated: on `MD: AB C D Date of Birth` the
honorific match `AB C D` ends in two single-letter words; only one is
stripped, so the returned name `MD: AB C` still ends in the
single-letter word `C`. -/
theorem C8_counterexample :
    mdGrp ("MD: AB C D Date of Birth".toList) = some ("AB C D".toList) ∧
    extract_name ("MD: AB C D Date of Birth".toList)
      = some ("MD: AB C".toList) ∧
    (pysplit ("AB C D".toList)).getLastD [] = ['D'] ∧
    (pysplit ("MD: AB C".toList)).getLastD [] = ['C'] :=
  ⟨by decide, by decide, by decide, by decide⟩

/-- C9: the endpoint core echoes the input text unchanged as the raw
text, and re-running the router on that echoed text reproduces the
details record — extraction is a pure function of its arguments. -/
theorem C9_idempotent_echo (doc_type : String) (all_text : List Char) :
    (extract_nid_info_core doc_type all_text).raw_text = all_text ∧
    extract_fields_by_type doc_type
        (extract_nid_info_core doc_type all_text).raw_text
      = (extract_nid_info_core doc_type all_text).details :=
  ⟨rfl, rfl⟩

/-- C4 (amended): each extractor always terminates with either absence
or a non-empty string; the date and identifier extractors moreover
return a substring of the input, while `extract_name` may normalize
(inserting the `MD:`/`MD.` honorific and single spaces), so its result
is non-empty but need not occur verbatim in the input. -/
theorem C4_amended (t : List Char) :
    (extract_date_of_birth t = none ∨
      ∃ s, extract_date_of_birth t = some s ∧ s ≠ [] ∧ SubSeg s t) ∧
    (extract_nid_number t = none ∨
      ∃ s, extract_nid_number t = some s ∧ s ≠ [] ∧ SubSeg s t) ∧
    (extract_name t = none ∨ ∃ s, extract_name t = some s ∧ s ≠ []) := by
  refine ⟨?_, ?_, ?_⟩
  · cases hd : extract_date_of_birth t with
    | none => exact Or.inl rfl
    | some s =>
      obtain ⟨h1, h2⟩ := extract_dob_sound hd
      exact Or.inr ⟨s, rfl, h1, h2⟩
  · cases hn : extract_nid_number t with
    | none => exact Or.inl rfl
    | some s =>
      obtain ⟨h1, h2⟩ := extract_nid_sound hn
      exact Or.inr ⟨s, rfl, h1, h2⟩
  · cases hm : extract_name t with
    | none => exact Or.inl rfl
    | some s => exact Or.inr ⟨s, rfl, extract_name_sound hm⟩

/-- Counterexample to C4 as stated: on `MD:JOHN Date of Birth` (no
space after the colon) `extract_name` returns `MD: JOHN`, which is not
a substring of the input — the honorific branch re-assembles the name
with an inserted space. -/
theorem C4_counterexample :
    extract_name ("MD:JOHN Date of Birth".toList) = some ("MD: JOHN".toList) ∧
    ¬ SubSeg ("MD: JOHN".toList) ("MD:JOHN Date of Birth".toList) := by
  refine ⟨by decide, ?_⟩
  intro h
  rw [← containsSegB_iff] at h
  exact absurd h (by decide)

/-- C7: the router's record always has exactly the five declared
fields, and the fields irrelevant to the declared type are absent: for
`NID` the BO and TIN fields, for `BO` everything except `bo_id`, for
`TIN` everything except `tin_number`. -/
theorem C7_fixed_shape (doc_type : String) (text : List Char) :
    (∃ n d i b t2, extract_fields_by_type doc_type text = ⟨n, d, i, b, t2⟩) ∧
    (extract_fields_by_type "NID" text).bo_id = none ∧
    (extract_fields_by_type "NID" text).tin_number = none ∧
    (extract_fields_by_type "BO" text).name = none ∧
    (extract_fields_by_type "BO" text).date_of_birth = none ∧
    (extract_fields_by_type "BO" text).nid_number = none ∧
    (extract_fields_by_type "BO" text).tin_number = none ∧
    (extract_fields_by_type "TIN" text).name = none ∧
    (extract_fields_by_type "TIN" text).date_of_birth = none ∧
    (extract_fields_by_type "TIN" text).nid_number = none ∧
    (extract_fields_by_type "TIN" text).bo_id = none := by
  refine ⟨⟨_, _, _, _, _, rfl⟩, ?_⟩
  simp [extract_fields_by_type, emptyDetails]

/-- C10 (amended): for document type `BO`, `bo_id` is non-absent only
when the text contains the words `BO`, `Account`, `Number`
consecutively (case-insensitive, with optional whitespace between
them), an optional `:` or `-`, optional whitespace, and then a number
of the exact shape `120`, three more digits, one whitespace character,
ten digits — the reported value being that number. -/
theorem C10_bo_labeled (t s : List Char)
    (h : (extract_fields_by_type "BO" t).bo_id = some s) :
    BONumberShape s ∧ BOLabeled t s := by
  have hbo : boExtract t = some s := by
    unfold extract_fields_by_type at h
    rw [if_neg (by decide), if_pos rfl] at h
    exact h
  exact boExtract_sound hbo

/-- Witness for C10 on a well-formed BO text. -/
theorem C10_bo_labeled_witness :
    (extract_fields_by_type "BO"
        ("BO Account Number: 120123 4567890123".toList)).bo_id
      = some ("120123 4567890123".toList) ∧
    (BONumberShape ("120123 4567890123".toList) ∧
      BOLabeled ("BO Account Number: 120123 4567890123".toList)
        ("120123 4567890123".toList)) :=
  ⟨by decide, C10_bo_labeled _ _ (by decide)⟩

/-- Counterexample to C10 as stated: the code's `\s` accepts a tab
between the digit groups, so `bo_id` can be non-absent although the
captured number contains no space at all — it is not of the shape
"six digits, a single space, ten digits". -/
theorem C10_counterexample :
    (extract_fields_by_type "BO"
        ("BO Account Number: 120123\t1234567890".toList)).bo_id
      = some ("120123\t1234567890".toList) ∧
    ' ' ∉ ("120123\t1234567890".toList) :=
  ⟨by decide, by decide⟩

end NIDParser
